import Mathlib

/-!
# CVXR canonicalization binding (`src/RcppCVXcanon.cpp`)

A shallow embedding of the Rcpp glue that marshals a named integer vector into
the `id_to_col` map, an integer vector into `constr_offsets`, and hands both to
the matrix builder.

* `std::map` is a list of entries kept in ascending key order, driven only by
  the map's comparator, as the C++ container is.
* An R named integer vector is a list of `(name, value)` pairs: the `names`
  attribute of an R vector has one entry per element.
* Loop counters are natural numbers; the C++ counters are `int`, so the model
  covers vectors of fewer than `2^31` elements.
-/

namespace CVXR

/-! ## `std::map` -/

/-- The statement `m[k] = v` on a `std::map` with comparator `less`: the entry
whose key is equivalent to `k` gets the value `v`, and when there is none a new
entry is inserted at its place in the key order. -/
def StdMap.assign {κ ν : Type} (less : κ → κ → Bool) : List (κ × ν) → κ → ν → List (κ × ν)
  | [], k, v => [(k, v)]
  | (k', v') :: m, k, v =>
    if less k k' then (k, v) :: (k', v') :: m
    else if less k' k then (k', v') :: StdMap.assign less m k v
    else (k', v) :: m

/-- The lookup `m.find(k)`: the value of the entry whose key is equivalent to `k`
under the comparator, if there is one. -/
def StdMap.find {κ ν : Type} (less : κ → κ → Bool) : List (κ × ν) → κ → Option ν
  | [], _ => none
  | (k', v') :: m, k =>
    if less k k' || less k' k then StdMap.find less m k else some v'

/-- The keys of a map, in iteration order. -/
def StdMap.keys {κ ν : Type} (m : List (κ × ν)) : List κ := m.map Prod.fst

/-- The comparator `std::less<int>`. -/
def intLess (a b : Int) : Bool := decide (a < b)

/-- The comparator `std::less<std::string>`: lexicographic comparison of the
characters. -/
def stringLess (a b : String) : Bool := decide (a.toList < b.toList)

/-! ## `atoi` -/

/-- The C `isspace` in the "C" locale: space, and the controls `\t \n \v \f \r`. -/
def isspace (c : Char) : Bool := c = ' ' || (9 ≤ c.toNat && c.toNat ≤ 13)

/-- The C `isdigit`. -/
def isdigit (c : Char) : Bool := 48 ≤ c.toNat && c.toNat ≤ 57

/-- Leading white space is skipped. -/
def skipSpace : List Char → List Char
  | [] => []
  | c :: cs => if isspace c then skipSpace cs else c :: cs

/-- The decimal digits at the front of the text are accumulated; the first
character that is not a digit ends the number. -/
def accDigits : Nat → List Char → Nat
  | acc, [] => acc
  | acc, c :: cs => if isdigit c then accDigits (10 * acc + (c.toNat - 48)) cs else acc

/-- An optional sign, then the digits. -/
def signedDigits : List Char → Int
  | [] => 0
  | c :: cs =>
    if c = '-' then -(accDigits 0 cs : Int)
    else if c = '+' then (accDigits 0 cs : Int)
    else (accDigits 0 (c :: cs) : Int)

/-- The C `strtol(s, NULL, 10)` with a 64-bit `long`: the number read, clamped to
the range of `long`. -/
def strtol (s : List Char) : Int :=
  max (-(2 : Int) ^ 63) (min (signedDigits (skipSpace s)) (2 ^ 63 - 1))

/-- Conversion of a `long` to `int`: reduction modulo `2^32` into the range of a
32-bit signed integer. -/
def toInt32 (x : Int) : Int := (x + 2 ^ 31) % 2 ^ 32 - 2 ^ 31

/-- The C `atoi`, which is `(int) strtol(s, NULL, 10)`. The C standard leaves the
result open when the number does not fit in an `int`; the model follows the
common C library there. -/
def atoi (s : String) : Int := toInt32 (strtol s.toList)

/-! ## The marshalling loops of the entry points -/

/-- An R integer vector with a `names` attribute. -/
abbrev NamedIntVector := List (String × Int)

/-- The loop of `build_matrix_0` and `build_matrix_1` that fills `id_to_col`:
`for (i ...) id_to_col[atoi(s[i])] = v[i];` starting from the empty map. -/
def id_to_col (v : NamedIntVector) : List (Int × Int) :=
  v.foldl (fun m p => StdMap.assign intLess m (atoi p.1) p.2) []

/-- The loop of `build_matrix_1` that fills `constr_offsets`:
`for (i ...) constr_offsets.push_back(v2[i]);` starting from the empty vector. -/
def constr_offsets (v2 : List Int) : List Int :=
  v2.foldl (fun acc x => acc ++ [x]) []

/-- The function `makeMap`: `for (i ...) result[as<std::string>(s[i])] = L[i];`
starting from the empty map. The list is a list of named numeric scalars; the
value stored is the element converted to `double`, a type the model keeps
abstract because no arithmetic is done on it. -/
def makeMap {ν : Type} (L : List (String × ν)) : List (String × ν) :=
  L.foldl (fun result p => StdMap.assign stringLess result p.1 p.2) []


/-! ## The canonicalization core

`build_matrix_2` and `build_matrix_3` are declared in `CVXcanon.hpp` and defined
outside `RcppCVXcanon.cpp`. They are modelled from the specification (sections 3,
4 and 7): the expression tree model, the index tables, the matrix-building
evaluator and the problem data assembler.

* Coefficient values live in a commutative ring `R`, which stands for the
  numbers of the solver.
* A block is flattened to a vector column by column, the convention of the host
  environment; the row count of an expression is the size of its flattened shape.
* An expression is a tree of values: a node shared by several parents is
  evaluated at each visit, which the specification allows.
* The evaluator has a rule for the operators section 4.3 gives a rule for; `DIV`
  and `PROMOTE` have none and are answered with `UnsupportedOperatorError`.
* The specification names no failure for overlapping column ranges; the model
  raises none. -/

/-- Modelled from the spec: the operator tags of a LinOp node (section 3). -/
inductive OpTag
  | VARIABLE | SCALAR_CONST | SPARSE_CONST | DENSE_CONST | SUM | NEG | MUL | DIV
  | INDEX | TRANSPOSE | RESHAPE | VSTACK | HSTACK | PROMOTE
  deriving DecidableEq, Repr

/-- Modelled from the spec: the optional numeric payload of a node, a scalar, a
dense block (given by its columns) or a sparse block (entries `(row, col, value)`). -/
inductive Payload (R : Type)
  | scalar (value : R)
  | dense (columns : List (List R))
  | sparse (entries : List (Nat × Nat × R))

/-- Modelled from the spec: a LinOp expression node (section 3): operator tag,
output shape `(rows, cols)`, ordered children, optional numeric payload and the
identifier that links a VARIABLE node to the index tables. The slice bounds
`(row_start, row_stop, col_start, col_stop)` are the data an INDEX node selects by. -/
inductive LinOp (R : Type)
  | node (tag : OpTag) (rows cols : Nat) (children : List (LinOp R))
      (payload : Option (Payload R)) (id : Int) (slice : Nat × Nat × Nat × Nat)

/-- Modelled from the spec: the operator tag of a node. -/
def LinOp.tag {R : Type} : LinOp R → OpTag
  | .node tag _ _ _ _ _ _ => tag

/-- Modelled from the spec: the rows of a node's output shape. -/
def LinOp.rows {R : Type} : LinOp R → Nat
  | .node _ rows _ _ _ _ _ => rows

/-- Modelled from the spec: the columns of a node's output shape. -/
def LinOp.cols {R : Type} : LinOp R → Nat
  | .node _ _ cols _ _ _ _ => cols

/-- Modelled from the spec: the identifier of a node. -/
def LinOp.id {R : Type} : LinOp R → Int
  | .node _ _ _ _ _ id _ => id

/-- Modelled from the spec: the children of a node. -/
def LinOp.children {R : Type} : LinOp R → List (LinOp R)
  | .node _ _ _ children _ _ _ => children

/-- Modelled from the spec: the row count of an expression's output block, the
size of its flattened output shape. -/
def rowCount {R : Type} (e : LinOp R) : Nat := e.rows * e.cols

/-- Modelled from the spec: the error taxonomy of section 7. A failure names the
offending node by its tag and its position in the forest. -/
inductive CanonError
  | UnknownVariableError (id : Int) (position : Nat)
  | UnsupportedOperatorError (tag : OpTag) (position : Nat)
  | DimensionMismatchError (tag : OpTag) (position : Nat)
  | IndexOutOfRangeError (expr_index : Nat)
  deriving DecidableEq, Repr

/-- Modelled from the spec: the coefficient representation of a node relative to
its own output shape (section 4.3): coefficient triplets `(local row, column,
value)`, the constant contribution vector, and for every VARIABLE below the node
the end of its column range (column + width). -/
structure Contribution (R : Type) where
  coeffs : List (Nat × Int × R)
  const : List R
  varEnds : List Int

/-- Modelled from the spec: `resolve_column` of section 4.2. -/
def resolve_column (id_to_col : List (Int × Int)) (id : Int) (position : Nat) :
    Except CanonError Int :=
  match StdMap.find intLess id_to_col id with
  | some col => .ok col
  | none => .error (.UnknownVariableError id position)

/-- Modelled from the spec: adds `x` to the entry `i` of a vector. -/
def addAt {R : Type} [Add R] : List R → Nat → R → List R
  | [], _, _ => []
  | y :: ys, 0, x => (y + x) :: ys
  | y :: ys, i + 1, x => y :: addAt ys i x

/-- Modelled from the spec: the running sums `[0, a, a + b, ...]` of
`[a, b, c, ...]`, the cumulative sizes of the preceding children. -/
def prefixSums : Nat → List Nat → List Nat
  | _, [] => []
  | acc, x :: xs => acc :: prefixSums (acc + x) xs

/-- Modelled from the spec: a linear action on flattened indices: the entry `k`
of the child goes, with a coefficient, to entries of the parent. -/
abbrev Action (R : Type) := Nat → List (Nat × R)

/-- Modelled from the spec: the coefficient triplets of a child under a linear action. -/
def actCoeffs {R : Type} [Mul R] (act : Action R) (coeffs : List (Nat × Int × R)) :
    List (Nat × Int × R) :=
  coeffs.flatMap (fun t => (act t.1).map (fun o => (o.1, t.2.1, o.2 * t.2.2)))

/-- Modelled from the spec: the constant vector of a child under a linear
action, added into `acc`. -/
def actConst {R : Type} [Add R] [Mul R] (act : Action R) : Nat → List R → List R → List R
  | _, [], acc => acc
  | k, x :: xs, acc =>
    actConst act (k + 1) xs ((act k).foldl (fun a o => addAt a o.1 (o.2 * x)) acc)

/-- Modelled from the spec: the composition of child contributions at a node of
flattened size `n`: each child's coefficient and constant contributions are
carried by the node's linear action and added. -/
def combineLinear {R : Type} [CommRing R] (n : Nat)
    (parts : List (Action R × Contribution R)) : Contribution R :=
  { coeffs := parts.flatMap (fun p => actCoeffs p.1 p.2.coeffs)
    const := parts.foldl (fun acc p => actConst p.1 0 p.2.const acc) (List.replicate n 0)
    varEnds := parts.flatMap (fun p => p.2.varEnds) }

/-- Modelled from the spec: the flattened constant value of a constant leaf of
shape `(rows, cols)`; `none` when the payload is absent or does not fit the shape. -/
def flattenPayload {R : Type} [CommRing R] (rows cols : Nat) :
    Option (Payload R) → Option (List R)
  | none => none
  | some (.scalar v) => if rows * cols = 1 then some [v] else none
  | some (.dense columns) =>
    if columns.length = cols ∧ columns.all (fun c => c.length = rows) then some columns.flatten
    else none
  | some (.sparse entries) =>
    if entries.all (fun e => e.1 < rows && e.2.1 < cols) then
      some (entries.foldl (fun acc e => addAt acc (e.1 + rows * e.2.1) e.2.2)
        (List.replicate (rows * cols) 0))
    else none

/-- Modelled from the spec: the constant matrix operand of a MUL node with `p`
rows acting on a child with `q` rows, as entries `(row, col, value)`; `none` when
the payload is absent or is not a `p` by `q` matrix. A scalar is the scalar
multiple of the identity. -/
def constantMatrix {R : Type} (p q : Nat) : Option (Payload R) → Option (List (Nat × Nat × R))
  | none => none
  | some (.scalar v) => if p = q then some ((List.range p).map (fun i => (i, i, v))) else none
  | some (.dense columns) =>
    if columns.length = q ∧ columns.all (fun c => c.length = p) then
      some ((columns.enum.map (fun jc => jc.2.enum.map (fun iv => (iv.1, jc.1, iv.2)))).flatten)
    else none
  | some (.sparse entries) =>
    if entries.all (fun e => e.1 < p && e.2.1 < q) then some entries else none

/-- Modelled from the spec: the action of the identity. -/
def idAction {R : Type} [One R] : Action R := fun k => [(k, 1)]

/-- Modelled from the spec: the evaluation of one node from the contributions
`cs` of its children (section 4.3). -/
def combine {R : Type} [CommRing R] (id_to_col : List (Int × Int)) (position : Nat)
    (tag : OpTag) (rows cols : Nat) (children : List (LinOp R))
    (payload : Option (Payload R)) (id : Int) (slice : Nat × Nat × Nat × Nat)
    (cs : List (Contribution R)) : Except CanonError (Contribution R) :=
  let n := rows * cols
  let mismatch : Except CanonError (Contribution R) :=
    .error (.DimensionMismatchError tag position)
  match tag with
  | .VARIABLE =>
    match resolve_column id_to_col id position with
    | .error e => .error e
    | .ok col =>
      .ok { coeffs := (List.range n).map (fun k => (k, col + (k : Int), 1))
            const := List.replicate n 0
            varEnds := [col + (n : Int)] }
  | .SCALAR_CONST | .DENSE_CONST | .SPARSE_CONST =>
    match flattenPayload rows cols payload with
    | none => mismatch
    | some vals =>
      if vals.length = n then .ok { coeffs := [], const := vals, varEnds := [] } else mismatch
  | .SUM =>
    if children.all (fun c => c.rows = rows && c.cols = cols) then
      .ok (combineLinear n (cs.map (fun c => (idAction, c))))
    else mismatch
  | .NEG =>
    match children, cs with
    | [child], [c] =>
      if child.rows = rows ∧ child.cols = cols then
        .ok (combineLinear n [(fun k => [(k, -1)], c)])
      else mismatch
    | _, _ => mismatch
  | .MUL =>
    match children, cs with
    | [child], [c] =>
      match constantMatrix rows child.rows payload with
      | none => mismatch
      | some entries =>
        if child.cols = cols then
          .ok (combineLinear n [(fun k =>
            (entries.filter (fun e => e.2.1 = k % child.rows)).map
              (fun e => (e.1 + rows * (k / child.rows), e.2.2)), c)])
        else mismatch
    | _, _ => mismatch
  | .INDEX =>
    match children, cs with
    | [child], [c] =>
      let r0 := slice.1
      let r1 := slice.2.1
      let c0 := slice.2.2.1
      let c1 := slice.2.2.2
      if r0 ≤ r1 ∧ r1 ≤ child.rows ∧ c0 ≤ c1 ∧ c1 ≤ child.cols
          ∧ rows = r1 - r0 ∧ cols = c1 - c0 then
        .ok (combineLinear n [(fun k =>
          let i := k % child.rows
          let j := k / child.rows
          if r0 ≤ i ∧ i < r1 ∧ c0 ≤ j ∧ j < c1 then [((i - r0) + rows * (j - c0), 1)]
          else [], c)])
      else mismatch
    | _, _ => mismatch
  | .TRANSPOSE =>
    match children, cs with
    | [child], [c] =>
      if child.rows = cols ∧ child.cols = rows then
        .ok (combineLinear n [(fun k => [(k / child.rows + rows * (k % child.rows), 1)], c)])
      else mismatch
    | _, _ => mismatch
  | .RESHAPE =>
    match children, cs with
    | [child], [c] =>
      if child.rows * child.cols = n then .ok (combineLinear n [(idAction, c)])
      else mismatch
    | _, _ => mismatch
  | .VSTACK =>
    if children.all (fun c => c.cols = cols) ∧ (children.map LinOp.rows).sum = rows then
      .ok (combineLinear n
        ((((children.map LinOp.rows).zip (prefixSums 0 (children.map LinOp.rows))).map
            (fun ro => fun k => [((k % ro.1 + ro.2) + rows * (k / ro.1), (1 : R))])).zip cs))
    else mismatch
  | .HSTACK =>
    if children.all (fun c => c.rows = rows) ∧ (children.map LinOp.cols).sum = cols then
      .ok (combineLinear n
        (((prefixSums 0 (children.map rowCount)).map
            (fun s => fun k => [(k + s, (1 : R))])).zip cs))
    else mismatch
  | .DIV | .PROMOTE => .error (.UnsupportedOperatorError tag position)

mutual
/-- Modelled from the spec: the post-order evaluation of a node (section 4.3): the
children first, in order, then the node itself; the first violation met ends the
evaluation (section 7). -/
def evalLinOp {R : Type} [CommRing R] (id_to_col : List (Int × Int)) (position : Nat) :
    LinOp R → Except CanonError (Contribution R)
  | .node tag rows cols children payload id slice =>
    match evalChildren id_to_col position children with
    | .error e => .error e
    | .ok cs => combine id_to_col position tag rows cols children payload id slice cs
/-- Modelled from the spec: the evaluation of the children of a node, in order. -/
def evalChildren {R : Type} [CommRing R] (id_to_col : List (Int × Int)) (position : Nat) :
    List (LinOp R) → Except CanonError (List (Contribution R))
  | [] => .ok []
  | c :: rest =>
    match evalLinOp id_to_col position c with
    | .error e => .error e
    | .ok x =>
      match evalChildren id_to_col position rest with
      | .error e => .error e
      | .ok xs => .ok (x :: xs)
end

/-- Modelled from the spec: `resolve_row` in single-block mode (section 4.2), the
running sum of the row counts of the prior root expressions. -/
def resolve_row_single {R : Type} (roots : List (LinOp R)) (expr_index : Nat) :
    Except CanonError Int :=
  .ok ((((roots.take expr_index).map rowCount).sum : Nat) : Int)

/-- Modelled from the spec: `resolve_row` in explicit-offset mode (section 4.2),
looked up from `constr_offsets[expr_index]`. -/
def resolve_row_explicit (constr_offsets : List Int) (expr_index : Nat) :
    Except CanonError Int :=
  match constr_offsets.get? expr_index with
  | some off => .ok off
  | none => .error (.IndexOutOfRangeError expr_index)

/-- Modelled from the spec: what the evaluator emits to the assembler: the global
triplet list, the constant blocks with the row each starts at, and for every
expression the end of its row block (offset + row count) and the ends of its
variables' column ranges. -/
structure Emitted (R : Type) where
  triplets : List (Int × Int × R)
  constants : List (Int × List R)
  rowEnds : List Int
  colEnds : List Int

/-- Modelled from the spec: the triplets of a root shifted by its row offset. -/
def shiftRows {R : Type} (off : Int) (coeffs : List (Nat × Int × R)) : List (Int × Int × R) :=
  coeffs.map (fun t => (off + (t.1 : Int), t.2.1, t.2.2))

/-- Modelled from the spec: `build(roots, id_to_col, row_offset_fn)` of section
4.3, from the root at position `i` on: each root is evaluated in its local row
coordinates, then its rows are shifted by `row_offset_fn(i)` and emitted. -/
def build {R : Type} [CommRing R] (id_to_col : List (Int × Int))
    (row_offset_fn : Nat → Except CanonError Int) :
    Nat → List (LinOp R) → Except CanonError (Emitted R)
  | _, [] => .ok { triplets := [], constants := [], rowEnds := [], colEnds := [] }
  | i, root :: rest =>
    match evalLinOp id_to_col i root with
    | .error e => .error e
    | .ok c =>
      match row_offset_fn i with
      | .error e => .error e
      | .ok off =>
        match build id_to_col row_offset_fn (i + 1) rest with
        | .error e => .error e
        | .ok em =>
          .ok { triplets := shiftRows off c.coeffs ++ em.triplets
                constants := (off, c.const) :: em.constants
                rowEnds := (off + (rowCount root : Int)) :: em.rowEnds
                colEnds := c.varEnds ++ em.colEnds }

/-- Modelled from the spec: the output of a canonicalization call (section 3):
the sparse matrix in triplet form with duplicates summed, the dense vector, and
the row and column counts. -/
structure ProblemData (R : Type) where
  A : List (Int × Int × R)
  b : List R
  rows : Int
  cols : Int
  deriving DecidableEq, Repr

/-- Modelled from the spec: the order of the `(row, col)` keys of the assembler's map. -/
def pairLess (a b : Int × Int) : Bool :=
  decide (a.1 < b.1) || (decide (a.1 = b.1) && decide (a.2 < b.2))

/-- Modelled from the spec: the statement `m[k] += v` on the assembler's map
keyed by `(row, col)`: the value is summed into the entry of the key, which
starts from zero when the key is new. -/
def accumulate {R : Type} [CommRing R] (m : List ((Int × Int) × R)) (k : Int × Int) (v : R) :
    List ((Int × Int) × R) :=
  StdMap.assign pairLess m k ((StdMap.find pairLess m k).getD 0 + v)

/-- Modelled from the spec: the triplet stream summed into a map keyed by
`(row, col)` and emitted in key order (section 4.4). -/
def sumDuplicates {R : Type} [CommRing R] (stream : List (Int × Int × R)) : List (Int × Int × R) :=
  (stream.foldl (fun m t => accumulate m (t.1, t.2.1) t.2.2) []).map
    (fun e => (e.1.1, e.1.2, e.2))

/-- Modelled from the spec: the maximum of a list of integers, zero for the empty list. -/
def maxOf : List Int → Int
  | [] => 0
  | x :: xs => xs.foldl max x

/-- Modelled from the spec: a value written at a row of the dense vector. -/
def writeAt {R : Type} (b : List R) (row : Int) (x : R) : List R :=
  if 0 ≤ row then b.set row.toNat x else b

/-- Modelled from the spec: a constant block written into the dense vector from
row `row` on. -/
def writeBlock {R : Type} : List R → Int → List R → List R
  | b, _, [] => b
  | b, row, x :: xs => writeBlock (writeAt b row x) (row + 1) xs

/-- Modelled from the spec: the problem data assembler (section 4.4 and 3): the
row count is the maximum over the expressions of offset + row count, the column
count the maximum over the variables of column + width, the matrix the triplet
stream with duplicates summed, and the vector has the constant contributions
written at the shifted rows. -/
def assemble {R : Type} [CommRing R] (em : Emitted R) : ProblemData R :=
  let rows := maxOf em.rowEnds
  { A := sumDuplicates em.triplets
    b := em.constants.foldl (fun b blk => writeBlock b blk.1 blk.2)
          (List.replicate rows.toNat 0)
    rows := rows
    cols := maxOf em.colEnds }

/-- Modelled from the spec: the entry point `build_without_offsets` (section 4.4),
rows assigned contiguously in forest order. -/
def build_without_offsets {R : Type} [CommRing R] (roots : List (LinOp R))
    (id_to_col : List (Int × Int)) : Except CanonError (ProblemData R) :=
  match build id_to_col (resolve_row_single roots) 0 roots with
  | .error e => .error e
  | .ok em => .ok (assemble em)

/-- Modelled from the spec: the entry point `build_with_offsets` (section 4.4),
rows placed at the caller's offsets. -/
def build_with_offsets {R : Type} [CommRing R] (roots : List (LinOp R))
    (id_to_col : List (Int × Int)) (constr_offsets : List Int) :
    Except CanonError (ProblemData R) :=
  match build id_to_col (resolve_row_explicit constr_offsets) 0 roots with
  | .error e => .error e
  | .ok em => .ok (assemble em)

/-- Modelled from the spec: `build_matrix_2`, declared in `CVXcanon.hpp` and
defined outside `RcppCVXcanon.cpp`, is the build without offsets. -/
def build_matrix_2 {R : Type} [CommRing R] (linvec : List (LinOp R))
    (id_to_col : List (Int × Int)) : Except CanonError (ProblemData R) :=
  build_without_offsets linvec id_to_col

/-- Modelled from the spec: `build_matrix_3`, declared in `CVXcanon.hpp` and
defined outside `RcppCVXcanon.cpp`, is the build with offsets. -/
def build_matrix_3 {R : Type} [CommRing R] (linvec : List (LinOp R))
    (id_to_col : List (Int × Int)) (constr_offsets : List Int) :
    Except CanonError (ProblemData R) :=
  build_with_offsets linvec id_to_col constr_offsets

/-! ## The entry points -/

/-- Modelled from the spec: the class `LinOpVector` behind the external pointer
`xp`, declared outside `RcppCVXcanon.cpp`; its field `linvec` is the forest. -/
structure LinOpVector (R : Type) where
  linvec : List (LinOp R)

/-- The entry point `build_matrix_0`. The state is the text written to
`Rcpp::Rcout`; the result is the problem data behind the returned pointer, or the
error the build raised, after which nothing more is written. -/
def build_matrix_0 {R : Type} [CommRing R] (Rcout : String) (xp : LinOpVector R)
    (v : NamedIntVector) : String × Except CanonError (ProblemData R) :=
  let id_to_col := id_to_col v
  let Rcout := Rcout ++ "Before Build Matrix\n"
  match build_matrix_2 xp.linvec id_to_col with
  | .error e => (Rcout, .error e)
  | .ok resPtr => (Rcout ++ "After constructing external ptr\n", .ok resPtr)

/-- The entry point `build_matrix_1`. -/
def build_matrix_1 {R : Type} [CommRing R] (Rcout : String) (xp : LinOpVector R)
    (v1 : NamedIntVector) (v2 : List Int) : String × Except CanonError (ProblemData R) :=
  let id_to_col := id_to_col v1
  let constr_offsets := constr_offsets v2
  let Rcout := Rcout ++ "Before Build Matrix\n"
  match build_matrix_3 xp.linvec id_to_col constr_offsets with
  | .error e => (Rcout, .error e)
  | .ok resPtr => (Rcout ++ "After constructing external ptr\n", .ok resPtr)

/-! ## Notions used to state the properties -/

/-- A comparator that is a strict total order, as `std::map` requires of its
comparator. -/
structure StrictTotal {κ : Type} (less : κ → κ → Bool) : Prop where
  irrefl : ∀ a, less a a = false
  trans : ∀ a b c, less a b = true → less b c = true → less a c = true
  tri : ∀ a b, less a b = false → less b a = false → a = b

/-- The map filled by a loop `m[key p] = value p` over a list, from the map `m`. -/
def StdMap.fill {κ ν α : Type} (less : κ → κ → Bool) (key : α → κ) (l : List (α × ν))
    (m : List (κ × ν)) : List (κ × ν) :=
  l.foldl (fun m p => StdMap.assign less m (key p.1) p.2) m

/-- The entry `(r, c)` of a matrix in triplet form: the sum of the values of the
triplets at `(r, c)`. -/
def entry {R : Type} [CommRing R] (A : List (Int × Int × R)) (r c : Int) : R :=
  ((A.filter (fun t => decide (t.1 = r ∧ t.2.1 = c))).map (fun t => t.2.2)).sum

/-- The text at which `atoi` expects the digits: after the white space and an
optional sign. -/
def numeralStart (s : List Char) : List Char :=
  match skipSpace s with
  | [] => []
  | c :: cs => if c = '-' ∨ c = '+' then cs else c :: cs

mutual
/-- The tree contains a VARIABLE node whose identifier is not a key of the map. -/
def hasUnknownVariable {R : Type} (ids : List (Int × Int)) : LinOp R → Bool
  | .node tag _ _ children _ id _ =>
    (decide (tag = .VARIABLE) && decide (id ∉ StdMap.keys ids))
      || anyUnknownVariable ids children
/-- Some tree of the list contains a VARIABLE node whose identifier is not a key
of the map. -/
def anyUnknownVariable {R : Type} (ids : List (Int × Int)) : List (LinOp R) → Bool
  | [] => false
  | e :: es => hasUnknownVariable ids e || anyUnknownVariable ids es
end

/-- The contributions of the roots of a forest, the first root at position `i`:
every root evaluated in order, the first violation ending the evaluation. -/
def evalForest {R : Type} [CommRing R] (id_to_col : List (Int × Int)) :
    Nat → List (LinOp R) → Except CanonError (List (Contribution R))
  | _, [] => .ok []
  | i, root :: rest =>
    match evalLinOp id_to_col i root with
    | .error e => .error e
    | .ok c =>
      match evalForest id_to_col (i + 1) rest with
      | .error e => .error e
      | .ok cs => .ok (c :: cs)

/-- In the post-order traversal of a tree at forest position `pos`, the first
violation met is the VARIABLE node of identifier `u`, which is not a key of the
map: either the node is that VARIABLE and its children evaluate, or the children
before one child evaluate and that child meets the unknown VARIABLE first. -/
inductive UnknownMetFirst {R : Type} [CommRing R] (ids : List (Int × Int)) (pos : Nat) :
    LinOp R → Int → Prop
  | atNode (rows cols : Nat) (children : List (LinOp R)) (payload : Option (Payload R))
      (id : Int) (slice : Nat × Nat × Nat × Nat) (cs : List (Contribution R)) :
      id ∉ StdMap.keys ids → evalChildren ids pos children = .ok cs →
      UnknownMetFirst ids pos (.node .VARIABLE rows cols children payload id slice) id
  | inChild (tag : OpTag) (rows cols : Nat) (before : List (LinOp R)) (child : LinOp R)
      (after : List (LinOp R)) (payload : Option (Payload R)) (id : Int)
      (slice : Nat × Nat × Nat × Nat) (cs : List (Contribution R)) (u : Int) :
      evalChildren ids pos before = .ok cs → UnknownMetFirst ids pos child u →
      UnknownMetFirst ids pos
        (.node tag rows cols (before ++ child :: after) payload id slice) u

/-- The entry `(k, c)` of an expression in its local row coordinates: the sum of
the values of its coefficient triplets at local row `k` and column `c`. -/
def localEntry {R : Type} [CommRing R] (coeffs : List (Nat × Int × R)) (k : Nat) (c : Int) : R :=
  ((coeffs.filter (fun t => decide (t.1 = k ∧ t.2.1 = c))).map (fun t => t.2.2)).sum

/-- The entry `(r, c)` that an expression placed at the row offset `off`
contributes to the matrix: its local entry at row `r - off`. -/
def placedEntry {R : Type} [CommRing R] (off : Int) (coeffs : List (Nat × Int × R))
    (r c : Int) : R :=
  if off ≤ r then localEntry coeffs (r - off).toNat c else 0

/-- The row at which expression `i` starts in single-block mode: the sum of the
row counts of the expressions before it. -/
def startRow {R : Type} (forest : List (LinOp R)) (i : Nat) : Int :=
  ((((forest.take i).map rowCount).sum : Nat) : Int)

/-- The node `VARIABLE(id)` of shape 1 by 1. -/
def var1 (id : Int) : LinOp Int := .node .VARIABLE 1 1 [] none id (0, 0, 0, 0)

/-- The node `NEG(e)` of shape 1 by 1. -/
def neg1 (e : LinOp Int) : LinOp Int := .node .NEG 1 1 [e] none 0 (0, 0, 0, 0)

/-- The node `SCALAR_CONST(v)`. -/
def const1 (v : Int) : LinOp Int := .node .SCALAR_CONST 1 1 [] (some (.scalar v)) 0 (0, 0, 0, 0)

/-- The node `SUM(a, b)` with the shape given. -/
def sumOf (rows cols : Nat) (a b : LinOp Int) : LinOp Int :=
  .node .SUM rows cols [a, b] none 0 (0, 0, 0, 0)

/-- The node `DENSE_CONST` of shape 2 by 1 with the column `(1, 2)`. -/
def dense21 : LinOp Int := .node .DENSE_CONST 2 1 [] (some (.dense [[1, 2]])) 0 (0, 0, 0, 0)

/-! ## Lemmas on `std::map` -/

section StdMapLemmas

variable {κ ν : Type} {less : κ → κ → Bool}

theorem StrictTotal.ofLinearOrder [LinearOrder κ] (hless : ∀ a b, less a b = true ↔ a < b) :
    StrictTotal less := by
  refine ⟨?_, ?_, ?_⟩
  · intro a
    cases h : less a a with
    | true => exact absurd ((hless _ _).1 h) (lt_irrefl a)
    | false => rfl
  · intro a b c h1 h2
    exact (hless _ _).2 (lt_trans ((hless _ _).1 h1) ((hless _ _).1 h2))
  · intro a b h1 h2
    have a1 : ¬ a < b := fun h => by rw [(hless _ _).2 h] at h1; cases h1
    have a2 : ¬ b < a := fun h => by rw [(hless _ _).2 h] at h2; cases h2
    exact le_antisymm (not_lt.1 a2) (not_lt.1 a1)

theorem intLess_strictTotal : StrictTotal intLess :=
  StrictTotal.ofLinearOrder (fun a b => by simp [intLess])

theorem stringLess_strictTotal : StrictTotal stringLess :=
  StrictTotal.ofLinearOrder (fun a b => by simp [stringLess, String.lt_iff_toList_lt])

theorem pairLess_strictTotal : StrictTotal pairLess := by
  refine ⟨?_, ?_, ?_⟩
  · intro a; simp [pairLess]
  · intro a b c h1 h2
    simp only [pairLess, Bool.or_eq_true, Bool.and_eq_true, decide_eq_true_eq] at h1 h2 ⊢
    omega
  · intro a b h1 h2
    simp only [pairLess, Bool.or_eq_false_iff, Bool.and_eq_false_iff, decide_eq_false_iff_not]
      at h1 h2
    obtain ⟨a1, a2⟩ := a
    obtain ⟨b1, b2⟩ := b
    simp only [Prod.mk.injEq]
    simp only at h1 h2
    omega

theorem StdMap.assign_cons_lt {k k' : κ} {v v' : ν} {m : List (κ × ν)}
    (h : less k k' = true) :
    StdMap.assign less ((k', v') :: m) k v = (k, v) :: (k', v') :: m := by
  simp [StdMap.assign, h]

theorem StdMap.assign_cons_gt {k k' : κ} {v v' : ν} {m : List (κ × ν)}
    (h1 : less k k' = false) (h2 : less k' k = true) :
    StdMap.assign less ((k', v') :: m) k v = (k', v') :: StdMap.assign less m k v := by
  simp [StdMap.assign, h1, h2]

theorem StdMap.assign_cons_eq {k k' : κ} {v v' : ν} {m : List (κ × ν)}
    (h1 : less k k' = false) (h2 : less k' k = false) :
    StdMap.assign less ((k', v') :: m) k v = (k', v) :: m := by
  simp [StdMap.assign, h1, h2]

theorem StdMap.length_assign_le (m : List (κ × ν)) (k : κ) (v : ν) :
    (StdMap.assign less m k v).length ≤ m.length + 1 := by
  induction m with
  | nil => simp [StdMap.assign]
  | cons e m ih =>
    obtain ⟨k', v'⟩ := e
    unfold StdMap.assign
    split
    · simp
    · split
      · simp only [List.length_cons]; omega
      · simp

theorem StdMap.mem_keys_assign (ho : StrictTotal less)
    (m : List (κ × ν)) (k : κ) (v : ν) (x : κ) :
    x ∈ StdMap.keys (StdMap.assign less m k v) ↔ x = k ∨ x ∈ StdMap.keys m := by
  induction m with
  | nil => simp [StdMap.assign, StdMap.keys]
  | cons e m ih =>
    obtain ⟨k', v'⟩ := e
    cases h1 : less k k' with
    | true => rw [StdMap.assign_cons_lt h1]; simp [StdMap.keys]
    | false =>
      cases h2 : less k' k with
      | true =>
        rw [StdMap.assign_cons_gt h1 h2]
        simp only [StdMap.keys, List.map_cons, List.mem_cons] at ih ⊢
        rw [ih]
        tauto
      | false =>
        rw [StdMap.assign_cons_eq h1 h2]
        have hk := ho.tri _ _ h1 h2
        simp [StdMap.keys, hk]

theorem StdMap.less_of_ne (ho : StrictTotal less) {a b : κ} (hab : a ≠ b) :
    (less a b || less b a) = true := by
  cases h1 : less a b with
  | true => rfl
  | false =>
    cases h2 : less b a with
    | true => rfl
    | false => exact absurd (ho.tri _ _ h1 h2) hab

theorem StdMap.find_assign [DecidableEq κ] (ho : StrictTotal less)
    (m : List (κ × ν)) (k : κ) (v : ν) (x : κ) :
    StdMap.find less (StdMap.assign less m k v) x
      = if x = k then some v else StdMap.find less m x := by
  have hne : ∀ a b : κ, a ≠ b → (less a b || less b a) = true :=
    fun a b => StdMap.less_of_ne ho
  have hrefl := ho.irrefl
  induction m with
  | nil =>
    by_cases hx : x = k
    · subst hx; simp [StdMap.assign, StdMap.find, hrefl]
    · simp [StdMap.assign, StdMap.find, hx, hne x k hx]
  | cons e m ih =>
    obtain ⟨k', v'⟩ := e
    cases h1 : less k k' with
    | true =>
      rw [StdMap.assign_cons_lt h1]
      by_cases hx : x = k
      · subst hx; simp [StdMap.find, hrefl]
      · rw [StdMap.find, hne x k hx]; simp [hx]
    | false =>
      cases h2 : less k' k with
      | true =>
        rw [StdMap.assign_cons_gt h1 h2]
        by_cases hx' : x = k'
        · subst hx'
          have : x ≠ k := by
            intro h; subst h; rw [hrefl] at h2; cases h2
          simp [StdMap.find, hrefl, this]
        · simp only [StdMap.find, hne x k' hx', if_true, ih]
      | false =>
        rw [StdMap.assign_cons_eq h1 h2]
        have hk := ho.tri _ _ h1 h2
        subst hk
        by_cases hx : x = k
        · subst hx; simp [StdMap.find, hrefl]
        · simp [StdMap.find, hx, hne x k hx]

theorem StdMap.find_eq_none_iff (ho : StrictTotal less) (m : List (κ × ν)) (x : κ) :
    StdMap.find less m x = none ↔ x ∉ StdMap.keys m := by
  induction m with
  | nil => simp [StdMap.find, StdMap.keys]
  | cons e m ih =>
    obtain ⟨k', v'⟩ := e
    by_cases hx : x = k'
    · subst hx
      simp [StdMap.find, StdMap.keys, ho.irrefl]
    · have := StdMap.less_of_ne ho hx
      simp only [StdMap.find, this, if_true, ih]
      simp [StdMap.keys, hx]

theorem StdMap.length_assign_of_not_mem (ho : StrictTotal less)
    (m : List (κ × ν)) (k : κ) (v : ν) (hk : k ∉ StdMap.keys m) :
    (StdMap.assign less m k v).length = m.length + 1 := by
  induction m with
  | nil => simp [StdMap.assign]
  | cons e m ih =>
    obtain ⟨k', v'⟩ := e
    simp only [StdMap.keys, List.map_cons, List.mem_cons, not_or] at hk
    cases h1 : less k k' with
    | true => rw [StdMap.assign_cons_lt h1]; simp
    | false =>
      cases h2 : less k' k with
      | true =>
        rw [StdMap.assign_cons_gt h1 h2]
        simp only [List.length_cons]
        rw [ih hk.2]
      | false => exact absurd (ho.tri _ _ h1 h2) hk.1

theorem StdMap.sorted_assign (ho : StrictTotal less)
    (m : List (κ × ν)) (k : κ) (v : ν)
    (hs : (StdMap.keys m).Pairwise (fun a b => less a b = true)) :
    (StdMap.keys (StdMap.assign less m k v)).Pairwise (fun a b => less a b = true) := by
  induction m with
  | nil => simp [StdMap.assign, StdMap.keys]
  | cons e m ih =>
    obtain ⟨k', v'⟩ := e
    have hs' := hs
    simp only [StdMap.keys, List.map_cons, List.pairwise_cons] at hs'
    cases h1 : less k k' with
    | true =>
      rw [StdMap.assign_cons_lt h1]
      simp only [StdMap.keys, List.map_cons, List.pairwise_cons]
      refine ⟨?_, hs'.1, hs'.2⟩
      intro y hy
      rcases List.mem_cons.1 hy with rfl | hy
      · exact h1
      · exact ho.trans _ _ _ h1 (hs'.1 y hy)
    | false =>
      cases h2 : less k' k with
      | true =>
        rw [StdMap.assign_cons_gt h1 h2]
        have ih' := ih hs'.2
        show (k' :: StdMap.keys (StdMap.assign less m k v)).Pairwise (fun a b => less a b = true)
        refine List.pairwise_cons.2 ⟨?_, ih'⟩
        intro y hy
        rcases (StdMap.mem_keys_assign ho m k v y).1 hy with rfl | hy
        · exact h2
        · exact hs'.1 y hy
      | false =>
        rw [StdMap.assign_cons_eq h1 h2]
        exact hs

theorem StdMap.nodup_of_sorted (ho : StrictTotal less) (l : List κ)
    (hs : l.Pairwise (fun a b => less a b = true)) : l.Nodup := by
  refine List.Pairwise.imp ?_ hs
  intro a b hab h
  subst h
  rw [ho.irrefl] at hab
  cases hab

theorem StdMap.mem_keys_fill {α : Type} (ho : StrictTotal less)
    (key : α → κ) (l : List (α × ν)) (m : List (κ × ν)) (x : κ) :
    x ∈ StdMap.keys (StdMap.fill less key l m) ↔
      x ∈ StdMap.keys m ∨ ∃ p ∈ l, key p.1 = x := by
  induction l generalizing m with
  | nil => simp [StdMap.fill]
  | cons p l ih =>
    have := ih (StdMap.assign less m (key p.1) p.2)
    simp only [StdMap.fill, List.foldl_cons] at this ⊢
    rw [this, StdMap.mem_keys_assign ho]
    simp only [List.mem_cons, exists_eq_or_imp]
    constructor
    · rintro ((h | h) | h)
      · exact Or.inr (Or.inl h.symm)
      · exact Or.inl h
      · exact Or.inr (Or.inr h)
    · rintro (h | h | h)
      · exact Or.inl (Or.inr h)
      · exact Or.inl (Or.inl h.symm)
      · exact Or.inr h

theorem StdMap.sorted_fill {α : Type} (ho : StrictTotal less)
    (key : α → κ) (l : List (α × ν)) (m : List (κ × ν))
    (hs : (StdMap.keys m).Pairwise (fun a b => less a b = true)) :
    (StdMap.keys (StdMap.fill less key l m)).Pairwise (fun a b => less a b = true) := by
  induction l generalizing m with
  | nil => simpa [StdMap.fill] using hs
  | cons p l ih =>
    simp only [StdMap.fill, List.foldl_cons]
    exact ih _ (StdMap.sorted_assign ho m _ _ hs)

theorem StdMap.length_fill_le {α : Type}
    (key : α → κ) (l : List (α × ν)) (m : List (κ × ν)) :
    (StdMap.fill less key l m).length ≤ m.length + l.length := by
  induction l generalizing m with
  | nil => simp [StdMap.fill]
  | cons p l ih =>
    simp only [StdMap.fill, List.foldl_cons, List.length_cons]
    have h1 := ih (StdMap.assign less m (key p.1) p.2)
    have h2 := @StdMap.length_assign_le _ _ less m (key p.1) p.2
    simp only [StdMap.fill] at h1
    omega

theorem StdMap.length_fill_nodup {α : Type} (ho : StrictTotal less)
    (key : α → κ) (l : List (α × ν)) (m : List (κ × ν))
    (hnd : (l.map (fun p => key p.1)).Nodup)
    (hdis : ∀ p ∈ l, key p.1 ∉ StdMap.keys m) :
    (StdMap.fill less key l m).length = m.length + l.length := by
  induction l generalizing m with
  | nil => simp [StdMap.fill]
  | cons p l ih =>
    simp only [List.map_cons, List.nodup_cons, List.mem_map, not_exists, not_and] at hnd
    simp only [StdMap.fill, List.foldl_cons, List.length_cons]
    have h1 := ih (StdMap.assign less m (key p.1) p.2) hnd.2 (by
      intro q hq hmem
      rcases (StdMap.mem_keys_assign ho _ _ _ _).1 hmem with h | h
      · exact hnd.1 q hq h
      · exact hdis q (List.mem_cons_of_mem _ hq) h)
    simp only [StdMap.fill] at h1
    rw [h1, StdMap.length_assign_of_not_mem ho m _ _ (hdis p (List.mem_cons_self _ _))]
    omega

theorem StdMap.find_fill_of_not_mem {α : Type} [DecidableEq κ] (ho : StrictTotal less)
    (key : α → κ) (l : List (α × ν)) (m : List (κ × ν)) (x : κ)
    (hx : ∀ p ∈ l, key p.1 ≠ x) :
    StdMap.find less (StdMap.fill less key l m) x = StdMap.find less m x := by
  induction l generalizing m with
  | nil => simp [StdMap.fill]
  | cons p l ih =>
    simp only [StdMap.fill, List.foldl_cons]
    have h1 := ih (StdMap.assign less m (key p.1) p.2)
      (fun q hq => hx q (List.mem_cons_of_mem _ hq))
    simp only [StdMap.fill] at h1
    rw [h1, StdMap.find_assign ho]
    have : x ≠ key p.1 := fun h => hx p (List.mem_cons_self _ _) h.symm
    simp [this]

theorem StdMap.find_fill_last {α : Type} [DecidableEq κ] (ho : StrictTotal less)
    (key : α → κ) (l1 l2 : List (α × ν)) (p : α × ν) (m : List (κ × ν))
    (hlast : ∀ q ∈ l2, key q.1 ≠ key p.1) :
    StdMap.find less (StdMap.fill less key (l1 ++ p :: l2) m) (key p.1) = some p.2 := by
  have : StdMap.fill less key (l1 ++ p :: l2) m
      = StdMap.fill less key l2
          (StdMap.assign less (StdMap.fill less key l1 m) (key p.1) p.2) := by
    simp [StdMap.fill, List.foldl_append]
  rw [this, StdMap.find_fill_of_not_mem ho key l2 _ _ hlast, StdMap.find_assign ho]
  simp

theorem StdMap.find_fill_index {α : Type} [DecidableEq κ] (ho : StrictTotal less)
    (key : α → κ) (l : List (α × ν)) (i : Nat) (hi : i < l.length)
    (hlast : ∀ j (hj : j < l.length), i < j → key (l.get ⟨j, hj⟩).1 ≠ key (l.get ⟨i, hi⟩).1) :
    StdMap.find less (StdMap.fill less key l []) (key (l.get ⟨i, hi⟩).1)
      = some (l.get ⟨i, hi⟩).2 := by
  have hsplit : l = l.take i ++ l.get ⟨i, hi⟩ :: l.drop (i + 1) := by
    rw [List.get_eq_getElem, List.getElem_cons_drop, List.take_append_drop]
  have h := StdMap.find_fill_last ho key (l.take i) (l.drop (i + 1)) (l.get ⟨i, hi⟩) []
    (by
      intro q hq
      obtain ⟨n, hn, rfl⟩ := List.getElem_of_mem hq
      rw [List.getElem_drop]
      have hb : i + 1 + n < l.length := by
        rw [List.length_drop] at hn; omega
      exact hlast (i + 1 + n) hb (by omega))
  rw [← hsplit] at h
  exact h

end StdMapLemmas

/-! ## Lemmas on `atoi` -/

theorem isdigit_digitChar (d : Nat) (h : d < 10) :
    isdigit (Nat.digitChar d) = true ∧ (Nat.digitChar d).toNat - 48 = d := by
  interval_cases d <;> decide

theorem toDigitsCore_append (f : Nat) : ∀ (n : Nat) (ds : List Char),
    Nat.toDigitsCore 10 f n ds = Nat.toDigitsCore 10 f n [] ++ ds := by
  induction f with
  | zero => intro n ds; simp [Nat.toDigitsCore]
  | succ f ih =>
    intro n ds
    simp only [Nat.toDigitsCore]
    split
    · simp
    · rw [ih (n / 10) (Nat.digitChar (n % 10) :: ds), ih (n / 10) [Nat.digitChar (n % 10)]]
      simp

theorem toDigitsCore_all_digits (f : Nat) : ∀ (n : Nat),
    ∀ c ∈ Nat.toDigitsCore 10 f n [], isdigit c = true := by
  induction f with
  | zero => intro n c hc; simp [Nat.toDigitsCore] at hc
  | succ f ih =>
    intro n c hc
    simp only [Nat.toDigitsCore] at hc
    have hd := (isdigit_digitChar (n % 10) (Nat.mod_lt _ (by decide))).1
    split at hc
    · simp only [List.mem_singleton] at hc
      rw [hc]; exact hd
    · rw [toDigitsCore_append] at hc
      rcases List.mem_append.1 hc with h | h
      · exact ih _ c h
      · simp only [List.mem_singleton] at h
        rw [h]; exact hd

theorem accDigits_append (l r : List Char) (hl : ∀ c ∈ l, isdigit c = true) (a : Nat) :
    accDigits a (l ++ r) = accDigits (accDigits a l) r := by
  induction l generalizing a with
  | nil => simp [accDigits]
  | cons c cs ih =>
    have hc := hl c (List.mem_cons_self _ _)
    simp only [List.cons_append, accDigits, hc, if_true]
    exact ih (fun x hx => hl x (List.mem_cons_of_mem _ hx)) _

theorem accDigits_toDigitsCore (f : Nat) : ∀ (n : Nat), n < f →
    accDigits 0 (Nat.toDigitsCore 10 f n []) = n := by
  induction f with
  | zero => intro n h; omega
  | succ f ih =>
    intro n h
    have hd := isdigit_digitChar (n % 10) (Nat.mod_lt _ (by decide))
    simp only [Nat.toDigitsCore]
    split
    · rename_i h0
      simp only [accDigits, hd.1, if_true, hd.2]
      omega
    · rename_i h0
      rw [toDigitsCore_append, accDigits_append _ _ (toDigitsCore_all_digits f _),
        ih (n / 10) (by omega)]
      simp only [accDigits, hd.1, if_true, hd.2]
      omega

theorem not_space_of_isdigit (c : Char) (h : isdigit c = true) :
    isspace c = false ∧ c ≠ '-' ∧ c ≠ '+' := by
  simp only [isdigit, Bool.and_eq_true, decide_eq_true_eq] at h
  refine ⟨?_, ?_, ?_⟩
  · simp only [isspace, Bool.or_eq_false_iff, decide_eq_false_iff_not, Bool.and_eq_false_iff]
    constructor
    · rintro rfl
      revert h; decide
    · omega
  · rintro rfl
    revert h; decide
  · rintro rfl
    revert h; decide

theorem toInt32_of_fits (x : Int) (h1 : -(2 : Int) ^ 31 ≤ x) (h2 : x < 2 ^ 31) :
    toInt32 x = x := by
  unfold toInt32
  norm_num at h1 h2 ⊢
  omega

theorem atoi_of_digits (s : String) (hs : ∀ c ∈ s.toList, isdigit c = true)
    (hfit : accDigits 0 s.toList < 2 ^ 31) : atoi s = (accDigits 0 s.toList : Int) := by
  have h1 : signedDigits (skipSpace s.toList) = (accDigits 0 s.toList : Int) := by
    cases hl : s.toList with
    | nil => simp [skipSpace, signedDigits, accDigits]
    | cons c cs =>
      have hc := not_space_of_isdigit c (hs c (by rw [hl]; exact List.mem_cons_self _ _))
      simp [skipSpace, signedDigits, hc.1, hc.2.1, hc.2.2]
  unfold atoi strtol
  rw [h1]
  have h3 : (0 : Int) ≤ (accDigits 0 s.toList : Int) := Int.ofNat_nonneg _
  have h4 : ((accDigits 0 s.toList : Nat) : Int) < 2 ^ 31 := by exact_mod_cast hfit
  rw [min_eq_left (by norm_num at h4 ⊢; omega), max_eq_right (by norm_num; omega)]
  exact toInt32_of_fits _ (by norm_num; omega) h4

theorem atoi_repr (n : Nat) (h : n < 2 ^ 31) : atoi (Nat.repr n) = (n : Int) := by
  have hl : (Nat.repr n).toList = Nat.toDigitsCore 10 (n + 1) n [] := rfl
  have hv : accDigits 0 (Nat.repr n).toList = n := by
    rw [hl]; exact accDigits_toDigitsCore (n + 1) n (by omega)
  rw [atoi_of_digits (Nat.repr n) (by rw [hl]; exact toDigitsCore_all_digits _ _) (by rw [hv]; exact h),
    hv]

theorem atoi_eq_zero_of_no_digit (s : String)
    (h : ∀ c ∈ (numeralStart s.toList).head?, isdigit c = false) : atoi s = 0 := by
  have hz : ∀ l : List Char, (∀ c ∈ l.head?, isdigit c = false) → accDigits 0 l = 0 := by
    intro l hl
    cases l with
    | nil => rfl
    | cons c cs =>
      have := hl c (by simp)
      simp [accDigits, this]
  have h1 : signedDigits (skipSpace s.toList) = 0 := by
    unfold numeralStart at h
    cases hl : skipSpace s.toList with
    | nil => rfl
    | cons c cs =>
      rw [hl] at h
      simp only at h
      by_cases hm : c = '-'
      · have := hz cs (by simpa [hm] using h)
        simp [signedDigits, hm, this]
      · by_cases hp : c = '+'
        · have := hz cs (by simpa [hp] using h)
          simp [signedDigits, hp, this]
        · have := hz (c :: cs) (by simpa [hm, hp] using h)
          simp [signedDigits, hm, hp, this]
  unfold atoi strtol
  rw [h1]
  decide

theorem constr_offsets_eq (v2 : List Int) : constr_offsets v2 = v2 := by
  have h : ∀ (l acc : List Int), l.foldl (fun acc x => acc ++ [x]) acc = acc ++ l := by
    intro l
    induction l with
    | nil => intro acc; simp
    | cons x xs ih => intro acc; simp [ih]
  simpa [constr_offsets] using h v2 []

theorem id_to_col_eq_fill (v : NamedIntVector) :
    id_to_col v = StdMap.fill intLess atoi v [] := rfl

theorem makeMap_eq_fill {ν : Type} (L : List (String × ν)) :
    makeMap L = StdMap.fill stringLess (fun s => s) L [] := rfl


/-! ## The entry points hand the marshalled inputs to the build -/

theorem build_matrix_0_result {R : Type} [CommRing R] (Rcout : String) (xp : LinOpVector R)
    (v : NamedIntVector) :
    (build_matrix_0 Rcout xp v).2 = build_matrix_2 xp.linvec (id_to_col v) := by
  cases h : build_matrix_2 xp.linvec (id_to_col v) <;> simp [build_matrix_0, h]

theorem build_matrix_1_result {R : Type} [CommRing R] (Rcout : String) (xp : LinOpVector R)
    (v1 : NamedIntVector) (v2 : List Int) :
    (build_matrix_1 Rcout xp v1 v2).2
      = build_matrix_3 xp.linvec (id_to_col v1) (constr_offsets v2) := by
  cases h : build_matrix_3 xp.linvec (id_to_col v1) (constr_offsets v2) <;>
    simp [build_matrix_1, h]

section FillSpec

variable {κ ν α : Type} {less : κ → κ → Bool}

theorem StdMap.fill_spec [DecidableEq κ] (ho : StrictTotal less) (key : α → κ)
    (l : List (α × ν)) :
    (∀ x, x ∈ StdMap.keys (StdMap.fill less key l []) ↔ x ∈ l.map (fun p => key p.1))
    ∧ (StdMap.keys (StdMap.fill less key l [])).Nodup
    ∧ (StdMap.fill less key l []).length ≤ l.length
    ∧ (∀ i (hi : i < l.length),
        (∀ j (hj : j < l.length), i < j → key l[j].1 ≠ key l[i].1) →
        StdMap.find less (StdMap.fill less key l []) (key l[i].1) = some l[i].2) := by
  refine ⟨?_, ?_, ?_, ?_⟩
  · intro x
    rw [StdMap.mem_keys_fill ho]
    simp [StdMap.keys]
  · exact StdMap.nodup_of_sorted ho _ (StdMap.sorted_fill ho key l [] (by simp [StdMap.keys]))
  · simpa using @StdMap.length_fill_le _ _ less _ key l []
  · intro i hi hlast
    exact StdMap.find_fill_index ho key l i hi hlast

theorem StdMap.fill_spec_nodup [DecidableEq κ] (ho : StrictTotal less) (key : α → κ)
    (l : List (α × ν)) (hnd : (l.map (fun p => key p.1)).Nodup) :
    (StdMap.keys (StdMap.fill less key l [])).Perm (l.map (fun p => key p.1))
    ∧ (StdMap.fill less key l []).length = l.length
    ∧ (∀ i (hi : i < l.length),
        StdMap.find less (StdMap.fill less key l []) (key l[i].1) = some l[i].2) := by
  obtain ⟨h1, h2, _, h4⟩ := StdMap.fill_spec ho key l
  refine ⟨?_, ?_, ?_⟩
  · exact (List.perm_ext_iff_of_nodup h2 hnd).2 h1
  · simpa using StdMap.length_fill_nodup ho key l [] hnd (by simp [StdMap.keys])
  · intro i hi
    refine h4 i hi ?_
    intro j hj hij heq
    have hi' : i < (l.map (fun p => key p.1)).length := by simpa using hi
    have hj' : j < (l.map (fun p => key p.1)).length := by simpa using hj
    have := (@List.Nodup.getElem_inj_iff _ _ hnd j hj' i hi').1 (by simpa using heq)
    omega

end FillSpec

theorem canonical_keys (ids : List Nat) (vals : List Int) (hlen : vals.length = ids.length)
    (hfit : ∀ n ∈ ids, n < 2 ^ 31) :
    ((ids.map Nat.repr).zip vals).map (fun p => atoi p.1) = ids.map Int.ofNat := by
  have h1 : ((ids.map Nat.repr).zip vals).map (fun p => atoi p.1)
      = (((ids.map Nat.repr).zip vals).map Prod.fst).map atoi := by
    simp [List.map_map, Function.comp_def]
  rw [h1, List.map_fst_zip _ _ (by simp [hlen]), List.map_map]
  apply List.map_congr_left
  intro n hn
  simp [atoi_repr n (hfit n hn)]

/-! ## The claims on the marshalling code -/

/-- C1: in both entry points, for a named integer vector whose names are the
canonical decimal representations of pairwise distinct non-negative integers that
fit in an `int`, the `id_to_col` map handed to the build has exactly those
integers as its keys, one entry per name, and maps the integer of the i-th name
to the i-th value. -/
theorem id_to_col_of_canonical_names {R : Type} [CommRing R] (ids : List Nat)
    (vals : List Int) (hlen : vals.length = ids.length) (hnd : ids.Nodup)
    (hfit : ∀ n ∈ ids, n < 2 ^ 31) :
    (StdMap.keys (id_to_col ((ids.map Nat.repr).zip vals))).Perm (ids.map Int.ofNat)
    ∧ (id_to_col ((ids.map Nat.repr).zip vals)).length = ids.length
    ∧ (∀ i (hi : i < ids.length) (hv : i < vals.length),
        StdMap.find intLess (id_to_col ((ids.map Nat.repr).zip vals)) (ids[i] : Int)
          = some vals[i])
    ∧ (∀ (Rcout : String) (xp : LinOpVector R),
        (build_matrix_0 Rcout xp ((ids.map Nat.repr).zip vals)).2
          = build_matrix_2 xp.linvec (id_to_col ((ids.map Nat.repr).zip vals)))
    ∧ (∀ (Rcout : String) (xp : LinOpVector R) (v2 : List Int),
        (build_matrix_1 Rcout xp ((ids.map Nat.repr).zip vals) v2).2
          = build_matrix_3 xp.linvec (id_to_col ((ids.map Nat.repr).zip vals))
              (constr_offsets v2)) := by
  have hk := canonical_keys ids vals hlen hfit
  have hnd' : (((ids.map Nat.repr).zip vals).map (fun p => atoi p.1)).Nodup := by
    rw [hk]
    exact hnd.map (fun a b h => Int.ofNat.inj h)
  obtain ⟨h1, h2, h3⟩ := StdMap.fill_spec_nodup intLess_strictTotal atoi
    ((ids.map Nat.repr).zip vals) hnd'
  rw [← id_to_col_eq_fill] at h1 h2 h3
  refine ⟨?_, ?_, ?_, ?_, ?_⟩
  · rw [← hk]; exact h1
  · rw [h2]; simp [hlen]
  · intro i hi hv
    have hz : i < ((ids.map Nat.repr).zip vals).length := by simp [hlen]; exact hi
    have h := h3 i hz
    simp only [List.getElem_zip, List.getElem_map] at h
    rw [atoi_repr _ (hfit _ (List.getElem_mem _))] at h
    exact h
  · intro Rcout xp; exact build_matrix_0_result _ _ _
  · intro Rcout xp v2; exact build_matrix_1_result _ _ _ _

/-- Witness of C1 at the names `"3"`, `"1"` with values `7`, `5`. -/
theorem id_to_col_of_canonical_names_witness :
    id_to_col [("3", 7), ("1", 5)] = [(1, 5), (3, 7)]
    ∧ (StdMap.keys (id_to_col (([3, 1].map Nat.repr).zip [7, 5]))).Perm ([3, 1].map Int.ofNat) :=
  ⟨by decide,
   (id_to_col_of_canonical_names (R := Int) [3, 1] [7, 5] (by decide) (by decide)
      (by decide)).1⟩

/-- C2: for every integer vector `v2` given to `build_matrix_1`, the
`constr_offsets` sequence handed to `build_matrix_3` has the length of `v2` and at
every position the element of `v2`. -/
theorem constr_offsets_preserved {R : Type} [CommRing R] (v2 : List Int) :
    (constr_offsets v2).length = v2.length
    ∧ (∀ i (h1 : i < (constr_offsets v2).length) (h2 : i < v2.length),
        (constr_offsets v2)[i] = v2[i])
    ∧ constr_offsets v2 = v2
    ∧ (∀ (Rcout : String) (xp : LinOpVector R) (v1 : NamedIntVector),
        (build_matrix_1 Rcout xp v1 v2).2
          = build_matrix_3 xp.linvec (id_to_col v1) (constr_offsets v2)) := by
  refine ⟨by rw [constr_offsets_eq], ?_, constr_offsets_eq v2, ?_⟩
  · intro i h1 h2
    simp only [constr_offsets_eq]
  · intro Rcout xp v1; exact build_matrix_1_result _ _ _ _

/-- Counterexample to C3: the name `"-1"` enters the map as the key `-1`; no
validation is made at the boundary. -/
theorem id_to_col_negative_key :
    ¬ (∀ k ∈ StdMap.keys (id_to_col [("-1", 0)]), (0 : Int) ≤ k) := by
  decide

/-- C3, amended: the conversion is not validated; the keys of `id_to_col` are the
integers `atoi` reads from the names, so every key is non-negative exactly when
every name reads as a non-negative integer, as the canonical decimal
representations of non-negative integers that fit in an `int` do. -/
theorem id_to_col_keys_nonneg_iff (v : NamedIntVector) :
    ((∀ k ∈ StdMap.keys (id_to_col v), (0 : Int) ≤ k) ↔ (∀ p ∈ v, (0 : Int) ≤ atoi p.1))
    ∧ ((∀ p ∈ v, ∃ n : Nat, n < 2 ^ 31 ∧ p.1 = Nat.repr n) →
        ∀ k ∈ StdMap.keys (id_to_col v), (0 : Int) ≤ k) := by
  have h1 := (StdMap.fill_spec (ν := Int) intLess_strictTotal atoi v).1
  rw [← id_to_col_eq_fill] at h1
  have hiff : (∀ k ∈ StdMap.keys (id_to_col v), (0 : Int) ≤ k) ↔ (∀ p ∈ v, (0 : Int) ≤ atoi p.1) := by
    constructor
    · intro h p hp
      exact h _ ((h1 _).2 (List.mem_map.2 ⟨p, hp, rfl⟩))
    · intro h k hk
      obtain ⟨p, hp, rfl⟩ := List.mem_map.1 ((h1 _).1 hk)
      exact h p hp
  refine ⟨hiff, ?_⟩
  intro hc
  refine hiff.2 ?_
  intro p hp
  obtain ⟨n, hn, hrepr⟩ := hc p hp
  rw [hrepr, atoi_repr n hn]
  exact Int.ofNat_nonneg n

/-- Witness of the amended C3 at the names `"3"`, `"1"`. -/
theorem id_to_col_keys_nonneg_iff_witness :
    ∀ k ∈ StdMap.keys (id_to_col [("3", 7), ("1", 5)]), (0 : Int) ≤ k :=
  (id_to_col_keys_nonneg_iff [("3", 7), ("1", 5)]).2 (by
    intro p hp
    simp only [List.mem_cons, List.mem_singleton, List.not_mem_nil, or_false] at hp
    rcases hp with rfl | rfl
    · exact ⟨3, by decide, by decide⟩
    · exact ⟨1, by decide, by decide⟩)

/-- C9: in both entry points, for every named integer vector, the key set of the
`id_to_col` map handed to the build is the set of the integers `atoi` reads from
the names (a name without digits where `atoi` expects them reads as 0), each key
is mapped to the value at the last position whose name reads as that key, and the
map has no more entries than the vector has names. -/
theorem id_to_col_of_any_names {R : Type} [CommRing R] (v : NamedIntVector) :
    (∀ k, k ∈ StdMap.keys (id_to_col v) ↔ k ∈ v.map (fun p => atoi p.1))
    ∧ (StdMap.keys (id_to_col v)).Nodup
    ∧ (id_to_col v).length ≤ v.length
    ∧ (∀ i (hi : i < v.length),
        (∀ j (hj : j < v.length), i < j → atoi v[j].1 ≠ atoi v[i].1) →
        StdMap.find intLess (id_to_col v) (atoi v[i].1) = some v[i].2)
    ∧ (∀ name : String,
        (∀ c ∈ (numeralStart name.toList).head?, isdigit c = false) → atoi name = 0)
    ∧ (∀ (Rcout : String) (xp : LinOpVector R),
        (build_matrix_0 Rcout xp v).2 = build_matrix_2 xp.linvec (id_to_col v))
    ∧ (∀ (Rcout : String) (xp : LinOpVector R) (v2 : List Int),
        (build_matrix_1 Rcout xp v v2).2
          = build_matrix_3 xp.linvec (id_to_col v) (constr_offsets v2)) := by
  obtain ⟨h1, h2, h3, h4⟩ := StdMap.fill_spec intLess_strictTotal atoi v
  rw [← id_to_col_eq_fill] at h1 h2 h3 h4
  exact ⟨h1, h2, h3, h4, atoi_eq_zero_of_no_digit,
    fun Rcout xp => build_matrix_0_result _ _ _,
    fun Rcout xp v2 => build_matrix_1_result _ _ _ _⟩

/-- Witness of C9: the names `"3"`, `"x"`, `" 3"` collide on the key `3`, the
later value wins, and `"x"` reads as `0`. -/
theorem id_to_col_of_any_names_witness :
    id_to_col [("3", 7), ("x", 5), (" 3", 9)] = [(0, 5), (3, 9)]
    ∧ StdMap.find intLess (id_to_col [("3", 7), ("x", 5), (" 3", 9)]) (atoi " 3") = some 9
    ∧ atoi "x" = 0 :=
  ⟨by decide,
   (id_to_col_of_any_names (R := Int) [("3", 7), ("x", 5), (" 3", 9)]).2.2.2.1 2 (by decide)
     (by intro j hj hij; simp only [List.length_cons, List.length_nil] at hj; omega),
   (id_to_col_of_any_names (R := Int) [("3", 7), ("x", 5), (" 3", 9)]).2.2.2.2.1 "x"
     (by decide)⟩

/-- C10: `makeMap` makes a map out of a named list: the key set of the result is
the set of the names, each name is mapped to the value of the last element that
carries it, and when the names are pairwise distinct the map has as many entries
as the list has elements, with `result[name_i] = L[i]`. -/
theorem makeMap_spec {ν : Type} (L : List (String × ν)) :
    (∀ name, name ∈ StdMap.keys (makeMap L) ↔ name ∈ L.map Prod.fst)
    ∧ (StdMap.keys (makeMap L)).Nodup
    ∧ (∀ i (hi : i < L.length),
        (∀ j (hj : j < L.length), i < j → L[j].1 ≠ L[i].1) →
        StdMap.find stringLess (makeMap L) L[i].1 = some L[i].2)
    ∧ ((L.map Prod.fst).Nodup →
        (makeMap L).length = L.length
        ∧ ∀ i (hi : i < L.length), StdMap.find stringLess (makeMap L) L[i].1 = some L[i].2) := by
  obtain ⟨h1, h2, _, h4⟩ := StdMap.fill_spec (ν := ν) stringLess_strictTotal (fun s : String => s) L
  rw [← makeMap_eq_fill] at h1 h2 h4
  refine ⟨h1, h2, h4, ?_⟩
  intro hnd
  obtain ⟨_, g2, g3⟩ := StdMap.fill_spec_nodup (ν := ν) stringLess_strictTotal
    (fun s : String => s) L hnd
  rw [← makeMap_eq_fill] at g2 g3
  exact ⟨g2, g3⟩

/-- Witness of C10 at the list `b = 7, a = 5` of distinct names, and at the list
`b = 7, a = 5, b = 9` where the last `b` wins. -/
theorem makeMap_spec_witness :
    makeMap [("b", (7 : Int)), ("a", 5)] = [("a", 5), ("b", 7)]
    ∧ (makeMap [("b", (7 : Int)), ("a", 5)]).length = 2
    ∧ makeMap [("b", (7 : Int)), ("a", 5), ("b", 9)] = [("a", 5), ("b", 9)]
    ∧ StdMap.find stringLess (makeMap [("b", (7 : Int)), ("a", 5), ("b", 9)]) "b" = some 9 :=
  ⟨by decide, ((makeMap_spec [("b", (7 : Int)), ("a", 5)]).2.2.2 (by decide)).1, by decide,
   (makeMap_spec [("b", (7 : Int)), ("a", 5), ("b", 9)]).2.2.1 2 (by decide)
     (by intro j hj hij; simp only [List.length_cons, List.length_nil] at hj; omega)⟩


/-! ## Lemmas on the assembler -/

section Assembler

variable {R : Type} [CommRing R]

theorem entry_nil (r c : Int) : entry ([] : List (Int × Int × R)) r c = 0 := by
  simp [entry]

theorem entry_cons (t : Int × Int × R) (A : List (Int × Int × R)) (r c : Int) :
    entry (t :: A) r c = (if t.1 = r ∧ t.2.1 = c then t.2.2 else 0) + entry A r c := by
  unfold entry
  by_cases h : t.1 = r ∧ t.2.1 = c
  · simp [List.filter_cons, h]
  · simp [List.filter_cons, h]

theorem entry_append (A B : List (Int × Int × R)) (r c : Int) :
    entry (A ++ B) r c = entry A r c + entry B r c := by
  simp [entry, List.filter_append]

theorem localEntry_cons (t : Nat × Int × R) (A : List (Nat × Int × R)) (k : Nat) (c : Int) :
    localEntry (t :: A) k c = (if t.1 = k ∧ t.2.1 = c then t.2.2 else 0) + localEntry A k c := by
  unfold localEntry
  by_cases h : t.1 = k ∧ t.2.1 = c
  · simp [List.filter_cons, h]
  · simp [List.filter_cons, h]

theorem entry_shiftRows (off : Int) (coeffs : List (Nat × Int × R)) (r c : Int) :
    entry (shiftRows off coeffs) r c = placedEntry off coeffs r c := by
  induction coeffs with
  | nil => simp [shiftRows, placedEntry, entry, localEntry]
  | cons t ts ih =>
    have hcons : shiftRows off (t :: ts)
        = (off + (t.1 : Int), t.2.1, t.2.2) :: shiftRows off ts := by
      simp [shiftRows]
    rw [hcons, entry_cons, ih]
    unfold placedEntry
    by_cases hr : off ≤ r
    · simp only [hr, if_true, localEntry_cons]
      have : (off + (t.1 : Int) = r ∧ t.2.1 = c) ↔ (t.1 = (r - off).toNat ∧ t.2.1 = c) := by
        constructor
        · rintro ⟨h1, h2⟩; exact ⟨by omega, h2⟩
        · rintro ⟨h1, h2⟩; exact ⟨by omega, h2⟩
      by_cases h : off + (t.1 : Int) = r ∧ t.2.1 = c
      · rw [if_pos h, if_pos (this.1 h)]
      · rw [if_neg h, if_neg (fun h' => h (this.2 h'))]
    · have : ¬ (off + (t.1 : Int) = r ∧ t.2.1 = c) := by
        rintro ⟨h1, _⟩; omega
      simp [hr, this]

theorem find_accumulate (m : List ((Int × Int) × R)) (k : Int × Int) (v : R) (x : Int × Int) :
    (StdMap.find pairLess (accumulate m k v) x).getD 0
      = (StdMap.find pairLess m x).getD 0 + (if x = k then v else 0) := by
  unfold accumulate
  rw [StdMap.find_assign pairLess_strictTotal]
  by_cases h : x = k
  · subst h; simp
  · simp [h]

theorem find_foldl_accumulate (s : List (Int × Int × R)) (m : List ((Int × Int) × R))
    (x : Int × Int) :
    (StdMap.find pairLess (s.foldl (fun m t => accumulate m (t.1, t.2.1) t.2.2) m) x).getD 0
      = (StdMap.find pairLess m x).getD 0 + entry s x.1 x.2 := by
  induction s generalizing m with
  | nil => simp [entry]
  | cons t ts ih =>
    rw [List.foldl_cons, ih, find_accumulate, entry_cons, add_assoc]
    congr 1
    by_cases h : x = (t.1, t.2.1)
    · have h' : t.1 = x.1 ∧ t.2.1 = x.2 := by rw [h]; exact ⟨rfl, rfl⟩
      rw [if_pos h, if_pos h']
    · have h' : ¬ (t.1 = x.1 ∧ t.2.1 = x.2) := by
        rintro ⟨h1, h2⟩
        apply h
        ext
        · exact h1.symm
        · exact h2.symm
      rw [if_neg h, if_neg h']

theorem sorted_foldl_accumulate (s : List (Int × Int × R)) (m : List ((Int × Int) × R))
    (hs : (StdMap.keys m).Pairwise (fun a b => pairLess a b = true)) :
    (StdMap.keys (s.foldl (fun m t => accumulate m (t.1, t.2.1) t.2.2) m)).Pairwise
      (fun a b => pairLess a b = true) := by
  induction s generalizing m with
  | nil => simpa using hs
  | cons t ts ih =>
    rw [List.foldl_cons]
    exact ih _ (StdMap.sorted_assign pairLess_strictTotal m _ _ hs)

theorem entry_of_map (m : List ((Int × Int) × R)) (hnd : (StdMap.keys m).Nodup) (r c : Int) :
    entry (m.map (fun e => (e.1.1, e.1.2, e.2))) r c
      = (StdMap.find pairLess m (r, c)).getD 0 := by
  induction m with
  | nil => simp [entry, StdMap.find]
  | cons e m ih =>
    obtain ⟨k', v'⟩ := e
    simp only [StdMap.keys, List.map_cons, List.nodup_cons] at hnd
    rw [List.map_cons, entry_cons, ih hnd.2]
    by_cases h : (r, c) = k'
    · subst h
      have hnone : StdMap.find pairLess m (r, c) = none :=
        (StdMap.find_eq_none_iff pairLess_strictTotal m (r, c)).2 hnd.1
      simp [StdMap.find, pairLess_strictTotal.irrefl, hnone]
    · have hl := StdMap.less_of_ne pairLess_strictTotal h
      have h' : ¬ (k'.1 = r ∧ k'.2 = c) := by
        rintro ⟨h1, h2⟩
        apply h
        ext
        · exact h1.symm
        · exact h2.symm
      simp only [StdMap.find, hl, if_true]
      rw [if_neg h', zero_add]

theorem entry_sumDuplicates (s : List (Int × Int × R)) (r c : Int) :
    entry (sumDuplicates s) r c = entry s r c := by
  unfold sumDuplicates
  have hs := sorted_foldl_accumulate s ([] : List ((Int × Int) × R)) (by simp [StdMap.keys])
  rw [entry_of_map _ (StdMap.nodup_of_sorted pairLess_strictTotal _ hs),
    find_foldl_accumulate]
  simp [StdMap.find]

theorem nodup_sumDuplicates (s : List (Int × Int × R)) :
    ((sumDuplicates s).map (fun t => (t.1, t.2.1))).Nodup := by
  unfold sumDuplicates
  have hs := sorted_foldl_accumulate s ([] : List ((Int × Int) × R)) (by simp [StdMap.keys])
  have := StdMap.nodup_of_sorted pairLess_strictTotal _ hs
  simpa [StdMap.keys, List.map_map, Function.comp_def] using this

theorem foldl_max_ge (l : List Int) (a : Int) :
    a ≤ l.foldl max a ∧ ∀ x ∈ l, x ≤ l.foldl max a := by
  induction l generalizing a with
  | nil => simp
  | cons y ys ih =>
    obtain ⟨h1, h2⟩ := ih (max a y)
    refine ⟨le_trans (le_max_left _ _) h1, ?_⟩
    intro x hx
    rcases List.mem_cons.1 hx with rfl | hx
    · exact le_trans (le_max_right _ _) h1
    · exact h2 x hx

theorem foldl_max_mem (l : List Int) (a : Int) : l.foldl max a ∈ a :: l := by
  induction l generalizing a with
  | nil => simp
  | cons y ys ih =>
    have := ih (max a y)
    rw [List.foldl_cons]
    rcases List.mem_cons.1 this with h | h
    · rw [h]
      rcases max_choice a y with h' | h' <;> rw [h'] <;> simp
    · exact List.mem_cons_of_mem _ (List.mem_cons_of_mem _ h)

theorem le_maxOf (l : List Int) : ∀ x ∈ l, x ≤ maxOf l := by
  cases l with
  | nil => simp
  | cons a l =>
    intro x hx
    obtain ⟨h1, h2⟩ := foldl_max_ge l a
    rcases List.mem_cons.1 hx with rfl | hx
    · exact h1
    · exact h2 x hx

theorem maxOf_mem (l : List Int) (h : l ≠ []) : maxOf l ∈ l := by
  cases l with
  | nil => exact absurd rfl h
  | cons a l => exact foldl_max_mem l a

end Assembler


/-! ## Lemmas on the dense vector -/

section Writes

variable {R : Type}

/-- The constant blocks of contiguous expressions, the first at row `s`. -/
theorem writeBlock_fill (c pre post : List R) (mid : List R) (hmid : mid.length = c.length) :
    writeBlock (pre ++ mid ++ post) (pre.length : Int) c = pre ++ c ++ post := by
  induction c generalizing pre mid with
  | nil =>
    have : mid = [] := List.length_eq_zero.1 hmid
    simp [writeBlock, this]
  | cons x xs ih =>
    cases mid with
    | nil => simp at hmid
    | cons y ys =>
      simp only [List.length_cons, Nat.add_right_cancel_iff] at hmid
      simp only [writeBlock]
      have h1 : writeAt (pre ++ (y :: ys) ++ post) (pre.length : Int) x
          = (pre ++ [x]) ++ ys ++ post := by
        unfold writeAt
        simp
      rw [h1]
      have h2 : ((pre.length : Int) + 1) = ((pre ++ [x]).length : Int) := by simp
      rw [h2, ih (pre ++ [x]) ys hmid]
      simp

end Writes


/-! ## Lemmas on the evaluator and the build -/

section Evaluator

variable {R : Type} [CommRing R]

theorem length_addAt (l : List R) : ∀ (i : Nat) (x : R), (addAt l i x).length = l.length := by
  induction l with
  | nil => intro i x; rfl
  | cons y ys ih =>
    intro i x
    cases i with
    | zero => rfl
    | succ i => simp [addAt, ih]

theorem length_foldl_addAt (os : List (Nat × R)) (x : R) (acc : List R) :
    (os.foldl (fun a o => addAt a o.1 (o.2 * x)) acc).length = acc.length := by
  induction os generalizing acc with
  | nil => rfl
  | cons o os ih => rw [List.foldl_cons, ih, length_addAt]

theorem length_actConst (act : Action R) (xs : List R) : ∀ (k : Nat) (acc : List R),
    (actConst act k xs acc).length = acc.length := by
  induction xs with
  | nil => intro k acc; rfl
  | cons x xs ih =>
    intro k acc
    simp only [actConst]
    rw [ih, length_foldl_addAt]

theorem combineLinear_const_length (n : Nat) (parts : List (Action R × Contribution R)) :
    (combineLinear n parts).const.length = n := by
  have h : ∀ (ps : List (Action R × Contribution R)) (acc : List R),
      (ps.foldl (fun acc p => actConst p.1 0 p.2.const acc) acc).length = acc.length := by
    intro ps
    induction ps with
    | nil => intro acc; rfl
    | cons p ps ih => intro acc; rw [List.foldl_cons, ih, length_actConst]
  simp [combineLinear, h]

theorem combine_const_length (ids : List (Int × Int)) (pos : Nat) (tag : OpTag)
    (rows cols : Nat) (children : List (LinOp R)) (payload : Option (Payload R)) (id : Int)
    (slice : Nat × Nat × Nat × Nat) (cs : List (Contribution R)) (c : Contribution R)
    (h : combine ids pos tag rows cols children payload id slice cs = .ok c) :
    c.const.length = rows * cols := by
  cases tag <;> simp only [combine] at h <;> (repeat' split at h) <;>
    first
      | (cases h; done)
      | (cases h; exact combineLinear_const_length _ _)
      | (cases h; assumption)
      | (cases h; simp)

theorem evalLinOp_const_length (ids : List (Int × Int)) (pos : Nat) (e : LinOp R)
    (c : Contribution R) (h : evalLinOp ids pos e = .ok c) :
    c.const.length = rowCount e := by
  cases e with
  | node tag rows cols children payload id slice =>
    rw [evalLinOp] at h
    split at h
    · cases h
    · exact combine_const_length _ _ _ _ _ _ _ _ _ _ _ h

theorem evalForest_cons_ok (ids : List (Int × Int)) (i : Nat) (root : LinOp R)
    (rest : List (LinOp R)) (cs : List (Contribution R))
    (h : evalForest ids i (root :: rest) = .ok cs) :
    ∃ x xs, cs = x :: xs ∧ evalLinOp ids i root = .ok x ∧ evalForest ids (i + 1) rest = .ok xs := by
  rw [evalForest] at h
  split at h
  · cases h
  · rename_i x hx
    split at h
    · cases h
    · rename_i xs hxs
      cases h
      exact ⟨x, xs, rfl, hx, hxs⟩

theorem evalForest_const_lengths (ids : List (Int × Int)) : ∀ (roots : List (LinOp R))
    (i : Nat) (cs : List (Contribution R)), evalForest ids i roots = .ok cs →
    cs.map (fun x => x.const.length) = roots.map rowCount := by
  intro roots
  induction roots with
  | nil => intro i cs h; rw [evalForest] at h; cases h; rfl
  | cons root rest ih =>
    intro i cs h
    obtain ⟨x, xs, rfl, hx, hxs⟩ := evalForest_cons_ok ids i root rest cs h
    simp [ih _ _ hxs, evalLinOp_const_length ids i root x hx]

theorem build_ok (ids : List (Int × Int)) (rowFn : Nat → Except CanonError Int) :
    ∀ (roots : List (LinOp R)) (i : Nat) (cs : List (Contribution R)) (os : List Int),
    evalForest ids i roots = .ok cs → os.length = roots.length →
    (∀ j (hj : j < os.length), rowFn (i + j) = .ok os[j]) →
    build ids rowFn i roots = .ok
      { triplets := (os.zip cs).flatMap (fun p => shiftRows p.1 p.2.coeffs)
        constants := (os.zip cs).map (fun p => (p.1, p.2.const))
        rowEnds := (os.zip roots).map (fun p => p.1 + (rowCount p.2 : Int))
        colEnds := cs.flatMap (fun x => x.varEnds) } := by
  intro roots
  induction roots with
  | nil =>
    intro i cs os h hlen _
    rw [evalForest] at h
    cases h
    have : os = [] := List.length_eq_zero.1 hlen
    subst this
    simp [build]
  | cons root rest ih =>
    intro i cs os h hlen hrow
    obtain ⟨x, xs, rfl, hx, hxs⟩ := evalForest_cons_ok ids i root rest cs h
    cases os with
    | nil => simp at hlen
    | cons o os =>
      have h0 := hrow 0 (by simp)
      simp only [Nat.add_zero, List.getElem_cons_zero] at h0
      have hrest := ih (i + 1) xs os hxs (by simpa using hlen) (by
        intro j hj
        have := hrow (j + 1) (by simpa using hj)
        simp only [List.getElem_cons_succ] at this
        rw [← this]
        congr 1
        omega)
      rw [build, hx]
      simp only [h0, hrest]
      simp

theorem entry_flatMap {α : Type} (l : List α) (f : α → List (Int × Int × R)) (r c : Int) :
    entry (l.flatMap f) r c = (l.map (fun p => entry (f p) r c)).sum := by
  induction l with
  | nil => simp [entry]
  | cons a l ih => simp [List.flatMap_cons, entry_append, ih]

end Evaluator


/-! ## The claims on the build -/

section BuildClaims

variable {R : Type} [CommRing R]

theorem assemble_entry (em : Emitted R) (r c : Int) :
    entry (assemble em).A r c = entry em.triplets r c := by
  simp [assemble, entry_sumDuplicates]

theorem build_error_of_evalForest_error (ids : List (Int × Int))
    (rowFn : Nat → Except CanonError Int) :
    ∀ (roots : List (LinOp R)) (i : Nat) (e : CanonError),
      evalForest ids i roots = .error e → ∃ err, build ids rowFn i roots = .error err := by
  intro roots
  induction roots with
  | nil => intro i e h; rw [evalForest] at h; cases h
  | cons root rest ih =>
    intro i e h
    rw [evalForest] at h
    rw [build]
    cases he : evalLinOp ids i root with
    | error err => exact ⟨err, rfl⟩
    | ok x =>
      rw [he] at h
      simp only at h ⊢
      cases hr : rowFn i with
      | error err => exact ⟨err, rfl⟩
      | ok off =>
        simp only
        cases hf : evalForest ids (i + 1) rest with
        | ok xs => rw [hf] at h; cases h
        | error e' =>
          obtain ⟨err, herr⟩ := ih (i + 1) e' hf
          rw [herr]
          exact ⟨err, rfl⟩

end BuildClaims


section SingleBlock

variable {R : Type} [CommRing R]

theorem range_map_running (l : List Nat) : ∀ a : Nat,
    (List.range l.length).map (fun i => a + (l.take i).sum) = prefixSums a l := by
  induction l with
  | nil => intro a; rfl
  | cons x xs ih =>
    intro a
    rw [List.length_cons, List.range_succ_eq_map, List.map_cons, List.map_map, prefixSums,
      ← ih (a + x)]
    simp only [List.take_zero, List.sum_nil, Nat.add_zero, List.cons.injEq, true_and]
    apply List.map_congr_left
    intro i _
    simp [Function.comp, List.take_succ_cons, Nat.add_assoc]

omit [CommRing R] in
theorem startRows_eq (forest : List (LinOp R)) :
    (List.range forest.length).map (startRow forest)
      = (prefixSums 0 (forest.map rowCount)).map Int.ofNat := by
  rw [← range_map_running, List.map_map, List.length_map]
  apply List.map_congr_left
  intro i _
  simp [startRow, List.map_take]

omit [CommRing R] in
theorem write_contiguous (cs : List (Contribution R)) : ∀ (pre rest : List R),
    rest.length = (cs.map (fun x => x.const.length)).sum →
    ((((prefixSums pre.length (cs.map (fun x => x.const.length))).map Int.ofNat).zip cs).map
        (fun p => (p.1, p.2.const))).foldl (fun b blk => writeBlock b blk.1 blk.2) (pre ++ rest)
      = pre ++ (cs.map (fun x => x.const)).flatten := by
  induction cs with
  | nil =>
    intro pre rest h
    have : rest = [] := List.length_eq_zero.1 (by simpa using h)
    simp [prefixSums, this]
  | cons x xs ih =>
    intro pre rest h
    simp only [List.map_cons, List.sum_cons] at h
    simp only [List.map_cons, prefixSums, List.zip_cons_cons, List.foldl_cons, List.flatten_cons]
    have hsplit : pre ++ rest
        = pre ++ rest.take x.const.length ++ rest.drop x.const.length := by
      rw [List.append_assoc, List.take_append_drop]
    have h1 := writeBlock_fill x.const pre (rest.drop x.const.length)
      (rest.take x.const.length) (by rw [List.length_take]; omega)
    rw [hsplit]
    show List.foldl _ (writeBlock _ ((pre.length : Nat) : Int) x.const) _ = _
    rw [h1]
    have h2 := ih (pre ++ x.const) (rest.drop x.const.length)
      (by rw [List.length_drop]; omega)
    rw [List.length_append] at h2
    simpa [List.append_assoc] using h2

omit [CommRing R] in
theorem resolve_row_single_ok (forest : List (LinOp R)) (j : Nat)
    (hj : j < ((List.range forest.length).map (startRow forest)).length) :
    resolve_row_single forest (0 + j)
      = .ok ((List.range forest.length).map (startRow forest))[j] := by
  simp [resolve_row_single, startRow]

theorem build_without_offsets_ok (forest : List (LinOp R)) (ids : List (Int × Int))
    (cs : List (Contribution R)) (hcs : evalForest ids 0 forest = .ok cs) :
    build_without_offsets forest ids = .ok (assemble
      { triplets := (((List.range forest.length).map (startRow forest)).zip cs).flatMap
          (fun p => shiftRows p.1 p.2.coeffs)
        constants := (((List.range forest.length).map (startRow forest)).zip cs).map
          (fun p => (p.1, p.2.const))
        rowEnds := (((List.range forest.length).map (startRow forest)).zip forest).map
          (fun p => p.1 + (rowCount p.2 : Int))
        colEnds := cs.flatMap (fun x => x.varEnds) }) := by
  unfold build_without_offsets
  rw [build_ok ids (resolve_row_single forest) forest 0 cs
    ((List.range forest.length).map (startRow forest)) hcs (by simp)
    (fun j hj => resolve_row_single_ok forest j hj)]

omit [CommRing R] in
theorem startRow_succ (forest : List (LinOp R)) (i : Nat) (hi : i < forest.length) :
    startRow forest i + (rowCount forest[i] : Int) = startRow forest (i + 1) := by
  unfold startRow
  rw [List.map_take, List.map_take,
    List.sum_take_succ (forest.map rowCount) i (by simpa using hi)]
  simp

omit [CommRing R] in
theorem startRow_le_total (forest : List (LinOp R)) (i : Nat) :
    startRow forest i ≤ (((forest.map rowCount).sum : Nat) : Int) := by
  unfold startRow
  have : (forest.map rowCount).sum
      = ((forest.take i).map rowCount).sum + ((forest.drop i).map rowCount).sum := by
    rw [← List.sum_append, ← List.map_append, List.take_append_drop]
  omega

omit [CommRing R] in
theorem startRow_length (forest : List (LinOp R)) :
    startRow forest forest.length = (((forest.map rowCount).sum : Nat) : Int) := by
  simp [startRow]

omit [CommRing R] in
theorem maxOf_single_block (forest : List (LinOp R)) :
    maxOf ((((List.range forest.length).map (startRow forest)).zip forest).map
        (fun p => p.1 + (rowCount p.2 : Int)))
      = (((forest.map rowCount).sum : Nat) : Int) := by
  have hget : ∀ n (hn : n < forest.length),
      (startRow forest n, forest[n])
        ∈ ((List.range forest.length).map (startRow forest)).zip forest := by
    intro n hn
    have hz : n < (((List.range forest.length).map (startRow forest)).zip forest).length := by
      simp; exact hn
    have : (((List.range forest.length).map (startRow forest)).zip forest)[n]
        = (startRow forest n, forest[n]) := by simp
    rw [← this]
    exact List.getElem_mem _
  by_cases hne : forest = []
  · subst hne; simp [maxOf]
  · apply le_antisymm
    · have hne' : (((List.range forest.length).map (startRow forest)).zip forest).map
          (fun p => p.1 + (rowCount p.2 : Int)) ≠ [] := by
        cases forest with
        | nil => exact absurd rfl hne
        | cons f fs => simp [List.range_succ_eq_map]
      obtain ⟨p, hp, hpe⟩ := List.mem_map.1 (maxOf_mem _ hne')
      obtain ⟨n, hn, rfl⟩ := List.getElem_of_mem hp
      have hn' : n < forest.length := by simpa using hn
      rw [← hpe]
      simp only [List.getElem_zip, List.getElem_map, List.getElem_range]
      rw [startRow_succ forest n hn']
      exact startRow_le_total forest (n + 1)
    · have hpos : 0 < forest.length := List.length_pos.2 hne
      have hlast := hget (forest.length - 1) (by omega)
      have := le_maxOf
        ((((List.range forest.length).map (startRow forest)).zip forest).map
          (fun p => p.1 + (rowCount p.2 : Int)))
        (startRow forest (forest.length - 1) + (rowCount forest[forest.length - 1] : Int))
        (List.mem_map.2 ⟨_, hlast, rfl⟩)
      rw [startRow_succ forest (forest.length - 1) (by omega)] at this
      have e : forest.length - 1 + 1 = forest.length := by omega
      rw [e, startRow_length] at this
      exact this

/-- The build without offsets on a forest whose roots evaluate to `cs`. -/
theorem build_without_offsets_of_eval (forest : List (LinOp R)) (ids : List (Int × Int))
    (cs : List (Contribution R)) (hcs : evalForest ids 0 forest = .ok cs) :
    ∃ pd, build_matrix_2 forest ids = .ok pd
      ∧ (∀ r col, entry pd.A r col
          = (((List.range forest.length).zip cs).map
              (fun p => placedEntry (startRow forest p.1) p.2.coeffs r col)).sum)
      ∧ (pd.A.map (fun t => (t.1, t.2.1))).Nodup
      ∧ pd.rows = (((forest.map rowCount).sum : Nat) : Int)
      ∧ pd.b = (cs.map (fun x => x.const)).flatten
      ∧ cs.map (fun x => x.const.length) = forest.map rowCount := by
  have hlens := evalForest_const_lengths ids forest 0 cs hcs
  refine ⟨_, build_without_offsets_ok forest ids cs hcs, ?_, ?_, ?_, ?_, hlens⟩
  · intro r col
    rw [assemble_entry, entry_flatMap, List.zip_map_left, List.map_map]
    congr 1
    apply List.map_congr_left
    intro p _
    exact entry_shiftRows _ _ _ _
  · exact nodup_sumDuplicates _
  · exact maxOf_single_block forest
  · dsimp only [assemble]
    rw [maxOf_single_block forest, Int.toNat_ofNat, startRows_eq, ← hlens]
    exact write_contiguous cs [] (List.replicate ((cs.map (fun x => x.const.length)).sum) 0)
      (by simp)

/-- The build without offsets returns a problem data exactly when every root
evaluates, and stacks the rows of every problem data it returns. -/
theorem build_matrix_2_contiguous (forest : List (LinOp R)) (ids : List (Int × Int)) :
    ((∃ pd, build_matrix_2 forest ids = .ok pd) ↔ ∃ cs, evalForest ids 0 forest = .ok cs)
    ∧ (∀ pd, build_matrix_2 forest ids = .ok pd →
        ∃ cs, evalForest ids 0 forest = .ok cs
          ∧ (∀ r col, entry pd.A r col
              = (((List.range forest.length).zip cs).map
                  (fun p => placedEntry (startRow forest p.1) p.2.coeffs r col)).sum)
          ∧ (pd.A.map (fun t => (t.1, t.2.1))).Nodup
          ∧ pd.rows = (((forest.map rowCount).sum : Nat) : Int)
          ∧ pd.b = (cs.map (fun x => x.const)).flatten
          ∧ cs.map (fun x => x.const.length) = forest.map rowCount) := by
  cases hcs : evalForest ids 0 forest with
  | error e =>
    obtain ⟨err, herr⟩ := build_error_of_evalForest_error ids
      (resolve_row_single forest) forest 0 e hcs
    have hb : build_matrix_2 forest ids = .error err := by
      simp only [build_matrix_2, build_without_offsets, herr]
    refine ⟨⟨?_, ?_⟩, ?_⟩
    · rintro ⟨pd, h⟩; rw [hb] at h; cases h
    · rintro ⟨cs, h⟩; cases h
    · intro pd h; rw [hb] at h; cases h
  | ok cs =>
    obtain ⟨pd', h1, props⟩ := build_without_offsets_of_eval forest ids cs hcs
    refine ⟨⟨fun _ => ⟨cs, rfl⟩, fun _ => ⟨pd', h1⟩⟩, ?_⟩
    intro pd h
    rw [h1] at h
    cases h
    exact ⟨cs, rfl, props⟩

end SingleBlock


section Failures

variable {R : Type} [CommRing R]

theorem combine_variable_unknown (ids : List (Int × Int)) (pos : Nat) (rows cols : Nat)
    (children : List (LinOp R)) (payload : Option (Payload R)) (id : Int)
    (slice : Nat × Nat × Nat × Nat) (cs : List (Contribution R))
    (h : id ∉ StdMap.keys ids) :
    combine ids pos .VARIABLE rows cols children payload id slice cs
      = .error (.UnknownVariableError id pos) := by
  have hf := (StdMap.find_eq_none_iff intLess_strictTotal ids id).2 h
  simp [combine, resolve_column, hf]

mutual
theorem evalLinOp_fails_of_unknown (ids : List (Int × Int)) (pos : Nat) :
    ∀ e : LinOp R, hasUnknownVariable ids e = true → ∃ err, evalLinOp ids pos e = .error err
  | .node tag rows cols children payload id slice => by
    intro h
    rw [hasUnknownVariable] at h
    rw [evalLinOp]
    cases hch : evalChildren ids pos children with
    | error err => exact ⟨err, rfl⟩
    | ok cs =>
      simp only
      rcases Bool.or_eq_true_iff.1 h with h1 | h2
      · simp only [Bool.and_eq_true, decide_eq_true_eq] at h1
        obtain ⟨ht, hid⟩ := h1
        subst ht
        exact ⟨_, combine_variable_unknown ids pos rows cols children payload id slice cs hid⟩
      · obtain ⟨err, herr⟩ := evalChildren_fails_of_unknown ids pos children h2
        rw [herr] at hch
        cases hch
theorem evalChildren_fails_of_unknown (ids : List (Int × Int)) (pos : Nat) :
    ∀ es : List (LinOp R), anyUnknownVariable ids es = true →
      ∃ err, evalChildren ids pos es = .error err
  | [] => by
    intro h
    rw [anyUnknownVariable] at h
    cases h
  | e :: es => by
    intro h
    rw [anyUnknownVariable] at h
    rw [evalChildren]
    cases he : evalLinOp ids pos e with
    | error err => exact ⟨err, rfl⟩
    | ok x =>
      simp only
      cases hes : evalChildren ids pos es with
      | error err => exact ⟨err, rfl⟩
      | ok xs =>
        rcases Bool.or_eq_true_iff.1 h with h1 | h2
        · obtain ⟨err, herr⟩ := evalLinOp_fails_of_unknown ids pos e h1
          rw [herr] at he
          cases he
        · obtain ⟨err, herr⟩ := evalChildren_fails_of_unknown ids pos es h2
          rw [herr] at hes
          cases hes
end

theorem build_fails_of_unknown (ids : List (Int × Int)) (rowFn : Nat → Except CanonError Int) :
    ∀ (roots : List (LinOp R)) (i : Nat), anyUnknownVariable ids roots = true →
      ∃ err, build ids rowFn i roots = .error err := by
  intro roots
  induction roots with
  | nil => intro i h; rw [anyUnknownVariable] at h; cases h
  | cons root rest ih =>
    intro i h
    rw [anyUnknownVariable] at h
    rw [build]
    cases he : evalLinOp ids i root with
    | error err => exact ⟨err, rfl⟩
    | ok x =>
      simp only
      cases hr : rowFn i with
      | error err => exact ⟨err, rfl⟩
      | ok off =>
        simp only
        rcases Bool.or_eq_true_iff.1 h with h1 | h2
        · obtain ⟨err, herr⟩ := evalLinOp_fails_of_unknown ids i root h1
          rw [herr] at he
          cases he
        · obtain ⟨err, herr⟩ := ih (i + 1) h2
          rw [herr]
          exact ⟨err, rfl⟩

theorem combine_extend (ids ids' : List (Int × Int))
    (hext : ∀ k ∈ StdMap.keys ids, StdMap.find intLess ids' k = StdMap.find intLess ids k)
    (pos : Nat) (tag : OpTag) (rows cols : Nat)
    (children : List (LinOp R)) (payload : Option (Payload R)) (id : Int)
    (slice : Nat × Nat × Nat × Nat) (cs : List (Contribution R)) (x : Contribution R)
    (h : combine ids' pos tag rows cols children payload id slice cs = .ok x) :
    combine ids pos tag rows cols children payload id slice cs = .ok x
      ∨ ∃ u, u ∉ StdMap.keys ids
          ∧ combine ids pos tag rows cols children payload id slice cs
              = .error (.UnknownVariableError u pos) := by
  by_cases ht : tag = .VARIABLE
  · subst ht
    by_cases hid : id ∈ StdMap.keys ids
    · left
      have := hext id hid
      rw [← h]
      simp only [combine, resolve_column, this]
    · right
      exact ⟨id, hid, combine_variable_unknown ids pos rows cols children payload id slice cs hid⟩
  · left
    rw [← h]
    cases tag <;> first | exact absurd rfl ht | rfl

mutual
theorem evalLinOp_extend (ids ids' : List (Int × Int))
    (hext : ∀ k ∈ StdMap.keys ids, StdMap.find intLess ids' k = StdMap.find intLess ids k)
    (pos : Nat) :
    ∀ (e : LinOp R) (x : Contribution R), evalLinOp ids' pos e = .ok x →
      evalLinOp ids pos e = .ok x
        ∨ ∃ u, u ∉ StdMap.keys ids ∧ evalLinOp ids pos e = .error (.UnknownVariableError u pos)
  | .node tag rows cols children payload id slice => by
    intro x h
    rw [evalLinOp] at h ⊢
    cases hch : evalChildren ids' pos children with
    | error err => rw [hch] at h; cases h
    | ok cs =>
      rw [hch] at h
      simp only at h
      rcases evalChildren_extend ids ids' hext pos children cs hch with h1 | ⟨u, hu, h2⟩
      · rw [h1]
        exact combine_extend ids ids' hext pos tag rows cols children payload id slice cs x h
      · rw [h2]
        exact Or.inr ⟨u, hu, rfl⟩
theorem evalChildren_extend (ids ids' : List (Int × Int))
    (hext : ∀ k ∈ StdMap.keys ids, StdMap.find intLess ids' k = StdMap.find intLess ids k)
    (pos : Nat) :
    ∀ (es : List (LinOp R)) (xs : List (Contribution R)), evalChildren ids' pos es = .ok xs →
      evalChildren ids pos es = .ok xs
        ∨ ∃ u, u ∉ StdMap.keys ids
            ∧ evalChildren ids pos es = .error (.UnknownVariableError u pos)
  | [] => by
    intro xs h
    rw [evalChildren] at h ⊢
    exact Or.inl h
  | e :: es => by
    intro xs h
    rw [evalChildren] at h ⊢
    cases he : evalLinOp ids' pos e with
    | error err => rw [he] at h; cases h
    | ok x =>
      rw [he] at h
      simp only at h
      cases hes : evalChildren ids' pos es with
      | error err => rw [hes] at h; cases h
      | ok ys =>
        rw [hes] at h
        simp only at h
        rcases evalLinOp_extend ids ids' hext pos e x he with h1 | ⟨u, hu, h2⟩
        · rw [h1]
          rcases evalChildren_extend ids ids' hext pos es ys hes with g1 | ⟨u, hu, g2⟩
          · rw [g1]; exact Or.inl h
          · rw [g2]; exact Or.inr ⟨u, hu, rfl⟩
        · rw [h2]
          exact Or.inr ⟨u, hu, rfl⟩
end

theorem build_extend (ids ids' : List (Int × Int))
    (hext : ∀ k ∈ StdMap.keys ids, StdMap.find intLess ids' k = StdMap.find intLess ids k)
    (rowFn : Nat → Except CanonError Int) :
    ∀ (roots : List (LinOp R)) (i : Nat) (em : Emitted R),
      build ids' rowFn i roots = .ok em →
      build ids rowFn i roots = .ok em
        ∨ ∃ u p, u ∉ StdMap.keys ids
            ∧ build ids rowFn i roots = .error (.UnknownVariableError u p) := by
  intro roots
  induction roots with
  | nil =>
    intro i em h
    rw [build] at h ⊢
    exact Or.inl h
  | cons root rest ih =>
    intro i em h
    rw [build] at h ⊢
    cases he : evalLinOp ids' i root with
    | error err => rw [he] at h; cases h
    | ok x =>
      rw [he] at h
      simp only at h
      cases hr : rowFn i with
      | error err => rw [hr] at h; cases h
      | ok off =>
        rw [hr] at h
        simp only at h
        cases hb : build ids' rowFn (i + 1) rest with
        | error err => rw [hb] at h; cases h
        | ok em' =>
          rw [hb] at h
          simp only at h
          rcases evalLinOp_extend ids ids' hext i root x he with h1 | ⟨u, hu, h2⟩
          · rw [h1]
            simp only
            rcases ih (i + 1) em' hb with g1 | ⟨u, p, hu, g2⟩
            · rw [g1]; exact Or.inl h
            · rw [g2]; exact Or.inr ⟨u, p, hu, rfl⟩
          · rw [h2]
            exact Or.inr ⟨u, i, hu, rfl⟩

theorem build_unknown_only (ids ids' : List (Int × Int))
    (hext : ∀ k ∈ StdMap.keys ids, StdMap.find intLess ids' k = StdMap.find intLess ids k)
    (rowFn : Nat → Except CanonError Int) (roots : List (LinOp R))
    (hunk : anyUnknownVariable ids roots = true) (em : Emitted R)
    (hok : build ids' rowFn 0 roots = .ok em) :
    ∃ u p, u ∉ StdMap.keys ids
      ∧ build ids rowFn 0 roots = .error (.UnknownVariableError u p) := by
  rcases build_extend ids ids' hext rowFn roots 0 em hok with h | h
  · obtain ⟨err, herr⟩ := build_fails_of_unknown ids rowFn roots 0 hunk
    rw [herr] at h
    cases h
  · exact h

theorem build_short_table_fails (ids : List (Int × Int)) (offs : List Int) :
    ∀ (roots : List (LinOp R)) (i : Nat), i ≤ offs.length → offs.length < i + roots.length →
      (∃ err, build ids (resolve_row_explicit offs) i roots = .error err)
      ∧ ∀ cs, evalForest ids i (roots.take (offs.length + 1 - i)) = .ok cs →
          build ids (resolve_row_explicit offs) i roots
            = .error (.IndexOutOfRangeError offs.length) := by
  intro roots
  induction roots with
  | nil => intro i h1 h2; simp at h2; omega
  | cons root rest ih =>
    intro i h1 h2
    have htake : (root :: rest).take (offs.length + 1 - i)
        = root :: rest.take (offs.length - i) := by
      have : offs.length + 1 - i = (offs.length - i) + 1 := by omega
      rw [this, List.take_succ_cons]
    rw [htake]
    by_cases hi : i = offs.length
    · have hrow : resolve_row_explicit offs i = .error (.IndexOutOfRangeError offs.length) := by
        subst hi
        simp [resolve_row_explicit]
      constructor
      · rw [build]
        cases he : evalLinOp ids i root with
        | error err => exact ⟨err, rfl⟩
        | ok x => exact ⟨.IndexOutOfRangeError offs.length, by simp only [hrow]⟩
      · intro cs hcs
        obtain ⟨x, xs, rfl, hx, _⟩ := evalForest_cons_ok ids i root _ cs hcs
        rw [build, hx]
        simp only [hrow]
    · have hlt : i < offs.length := by omega
      have hrow : resolve_row_explicit offs i = .ok offs[i] := by
        simp [resolve_row_explicit, List.getElem?_eq_getElem hlt]
      obtain ⟨⟨err, herr⟩, ih2⟩ := ih (i + 1) (by omega) (by simp at h2 ⊢; omega)
      constructor
      · rw [build]
        cases he : evalLinOp ids i root with
        | error err' => exact ⟨err', rfl⟩
        | ok x => exact ⟨err, by simp only [hrow, herr]⟩
      · intro cs hcs
        obtain ⟨x, xs, rfl, hx, hxs⟩ := evalForest_cons_ok ids i root _ cs hcs
        have e : offs.length + 1 - (i + 1) = offs.length - i := by omega
        have := ih2 xs (by rw [e]; exact hxs)
        rw [build, hx]
        simp only [hrow, this]

end Failures


section FirstViolation

variable {R : Type} [CommRing R]

theorem combine_unknown_inv (ids : List (Int × Int)) (pos : Nat) (tag : OpTag)
    (rows cols : Nat) (children : List (LinOp R)) (payload : Option (Payload R)) (id : Int)
    (slice : Nat × Nat × Nat × Nat) (cs : List (Contribution R)) (u : Int) (q : Nat)
    (h : combine ids pos tag rows cols children payload id slice cs
      = .error (.UnknownVariableError u q)) :
    tag = .VARIABLE ∧ u = id ∧ q = pos ∧ id ∉ StdMap.keys ids := by
  by_cases ht : tag = .VARIABLE
  · subst ht
    by_cases hid : id ∈ StdMap.keys ids
    · exfalso
      cases hf : StdMap.find intLess ids id with
      | none => exact ((StdMap.find_eq_none_iff intLess_strictTotal ids id).1 hf) hid
      | some col => simp [combine, resolve_column, hf] at h
    · rw [combine_variable_unknown ids pos rows cols children payload id slice cs hid] at h
      cases h
      exact ⟨rfl, rfl, rfl, hid⟩
  · exfalso
    cases tag <;> simp only [combine] at h <;> (repeat' split at h) <;>
      first
        | (cases h; done)
        | exact ht rfl

theorem evalChildren_append_error (ids : List (Int × Int)) (pos : Nat) (child : LinOp R)
    (after : List (LinOp R)) (e : CanonError) (hchild : evalLinOp ids pos child = .error e) :
    ∀ (before : List (LinOp R)) (cs : List (Contribution R)),
      evalChildren ids pos before = .ok cs →
      evalChildren ids pos (before ++ child :: after) = .error e := by
  intro before
  induction before with
  | nil =>
    intro cs _
    rw [List.nil_append, evalChildren, hchild]
  | cons b bs ih =>
    intro cs h
    rw [evalChildren] at h
    cases hb : evalLinOp ids pos b with
    | error err => rw [hb] at h; cases h
    | ok x =>
      rw [hb] at h
      simp only at h
      cases hbs : evalChildren ids pos bs with
      | error err => rw [hbs] at h; cases h
      | ok xs =>
        rw [List.cons_append, evalChildren, hb]
        simp only
        rw [ih xs hbs]

theorem evalLinOp_of_unknownMetFirst (ids : List (Int × Int)) (pos : Nat) (e : LinOp R)
    (u : Int) (h : UnknownMetFirst ids pos e u) :
    evalLinOp ids pos e = .error (.UnknownVariableError u pos) := by
  induction h with
  | atNode rows cols children payload id slice cs hid hch =>
    rw [evalLinOp, hch]
    exact combine_variable_unknown ids pos rows cols children payload id slice cs hid
  | inChild tag rows cols before child after payload id slice cs u hbefore _ ih =>
    rw [evalLinOp, evalChildren_append_error ids pos child after _ ih before cs hbefore]

theorem not_mem_of_unknownMetFirst (ids : List (Int × Int)) (pos : Nat) (e : LinOp R)
    (u : Int) (h : UnknownMetFirst ids pos e u) : u ∉ StdMap.keys ids := by
  induction h with
  | atNode rows cols children payload id slice cs hid hch => exact hid
  | inChild tag rows cols before child after payload id slice cs u hbefore _ ih => exact ih

mutual
theorem unknownMetFirst_of_evalLinOp (ids : List (Int × Int)) (pos : Nat) :
    ∀ (e : LinOp R) (u : Int) (q : Nat),
      evalLinOp ids pos e = .error (.UnknownVariableError u q) →
      q = pos ∧ UnknownMetFirst ids pos e u
  | .node tag rows cols children payload id slice => by
    intro u q h
    rw [evalLinOp] at h
    cases hch : evalChildren ids pos children with
    | error err =>
      rw [hch] at h
      simp only at h
      cases h
      obtain ⟨hq, before, child, after, cs, hsplit, hbefore, hmet⟩ :=
        unknownMetFirst_of_evalChildren ids pos children u q hch
      subst hsplit
      exact ⟨hq, UnknownMetFirst.inChild tag rows cols before child after payload id slice cs u
        hbefore hmet⟩
    | ok cs =>
      rw [hch] at h
      simp only at h
      obtain ⟨ht, hu, hq, hid⟩ :=
        combine_unknown_inv ids pos tag rows cols children payload id slice cs u q h
      subst ht
      subst hu
      exact ⟨hq, UnknownMetFirst.atNode rows cols children payload u slice cs hid hch⟩
theorem unknownMetFirst_of_evalChildren (ids : List (Int × Int)) (pos : Nat) :
    ∀ (es : List (LinOp R)) (u : Int) (q : Nat),
      evalChildren ids pos es = .error (.UnknownVariableError u q) →
      q = pos ∧ ∃ before child after cs, es = before ++ child :: after
        ∧ evalChildren ids pos before = .ok cs ∧ UnknownMetFirst ids pos child u
  | [] => by
    intro u q h
    rw [evalChildren] at h
    cases h
  | e :: es => by
    intro u q h
    rw [evalChildren] at h
    cases he : evalLinOp ids pos e with
    | error err =>
      rw [he] at h
      simp only at h
      cases h
      obtain ⟨hq, hmet⟩ := unknownMetFirst_of_evalLinOp ids pos e u q he
      exact ⟨hq, [], e, es, [], rfl, by rw [evalChildren], hmet⟩
    | ok x =>
      rw [he] at h
      simp only at h
      cases hes : evalChildren ids pos es with
      | ok xs => rw [hes] at h; cases h
      | error err =>
        rw [hes] at h
        simp only at h
        cases h
        obtain ⟨hq, before, child, after, cs, hsplit, hbefore, hmet⟩ :=
          unknownMetFirst_of_evalChildren ids pos es u q hes
        refine ⟨hq, e :: before, child, after, x :: cs, by rw [hsplit]; rfl, ?_, hmet⟩
        rw [evalChildren, he]
        simp only
        rw [hbefore]
end

theorem evalLinOp_unknown_iff (ids : List (Int × Int)) (pos : Nat) (e : LinOp R) (u : Int)
    (q : Nat) :
    evalLinOp ids pos e = .error (.UnknownVariableError u q)
      ↔ q = pos ∧ UnknownMetFirst ids pos e u := by
  constructor
  · exact unknownMetFirst_of_evalLinOp ids pos e u q
  · rintro ⟨rfl, h⟩
    exact evalLinOp_of_unknownMetFirst ids q e u h

theorem build_unknown_iff (ids : List (Int × Int)) (rowFn : Nat → Except CanonError Int)
    (hrow : ∀ i u q, rowFn i ≠ .error (.UnknownVariableError u q)) :
    ∀ (roots : List (LinOp R)) (i : Nat) (u : Int) (p : Nat),
      build ids rowFn i roots = .error (.UnknownVariableError u p)
        ↔ ∃ j, ∃ (hj : j < roots.length), p = i + j
            ∧ (∃ cs, evalForest ids i (roots.take j) = .ok cs)
            ∧ (∀ m, m < j → ∃ off, rowFn (i + m) = .ok off)
            ∧ UnknownMetFirst ids (i + j) roots[j] u := by
  intro roots
  induction roots with
  | nil =>
    intro i u p
    rw [build]
    constructor
    · intro h; cases h
    · rintro ⟨j, hj, _⟩; simp at hj
  | cons root rest ih =>
    intro i u p
    have hzero : ∀ (j : Nat) (hj : j < (root :: rest).length),
        (∃ cs, evalForest ids i ((root :: rest).take j) = .ok cs) →
        UnknownMetFirst ids (i + j) (root :: rest)[j] u →
        (∀ x, evalLinOp ids i root ≠ .ok x) → j = 0 := by
      intro j hj hcs _ hno
      cases j with
      | zero => rfl
      | succ j =>
        obtain ⟨cs, hcs⟩ := hcs
        rw [List.take_succ_cons] at hcs
        obtain ⟨x, _, _, hx, _⟩ := evalForest_cons_ok ids i root _ cs hcs
        exact absurd hx (hno x)
    rw [build]
    cases he : evalLinOp ids i root with
    | error err =>
      simp only
      constructor
      · intro h
        cases h
        obtain ⟨hq, hmet⟩ := unknownMetFirst_of_evalLinOp ids i root u p he
        subst hq
        refine ⟨0, by simp, rfl, ⟨[], by rw [List.take_zero, evalForest]⟩, ?_, ?_⟩
        · intro m hm; omega
        · simpa using hmet
      · rintro ⟨j, hj, hp, hcs, _, hmet⟩
        have hj0 := hzero j hj hcs hmet (by intro x hx; rw [he] at hx; cases hx)
        subst hj0
        have := evalLinOp_of_unknownMetFirst ids (i + 0) root u (by simpa using hmet)
        rw [Nat.add_zero] at this hp
        rw [he] at this
        cases this
        rw [hp]
    | ok x =>
      simp only
      have hnot0 : ∀ (j : Nat) (hj : j < (root :: rest).length),
          UnknownMetFirst ids (i + j) (root :: rest)[j] u → j ≠ 0 := by
        intro j hj hmet hj0
        subst hj0
        have := evalLinOp_of_unknownMetFirst ids (i + 0) root u (by simpa using hmet)
        rw [Nat.add_zero, he] at this
        cases this
      cases hr : rowFn i with
      | error err =>
        simp only
        constructor
        · intro h
          cases h
          exact absurd hr (hrow i u p)
        · rintro ⟨j, hj, hp, hcs, hoff, hmet⟩
          have hj0 := hnot0 j hj hmet
          obtain ⟨off, hoff0⟩ := hoff 0 (by omega)
          rw [Nat.add_zero, hr] at hoff0
          cases hoff0
      | ok off =>
        simp only
        have key : build ids rowFn (i + 1) rest = .error (.UnknownVariableError u p)
            ↔ ∃ j, ∃ (hj : j < (root :: rest).length), p = i + j
              ∧ (∃ cs, evalForest ids i ((root :: rest).take j) = .ok cs)
              ∧ (∀ m, m < j → ∃ off, rowFn (i + m) = .ok off)
              ∧ UnknownMetFirst ids (i + j) (root :: rest)[j] u := by
          rw [ih (i + 1) u p]
          constructor
          · rintro ⟨j, hj, hp, ⟨cs, hcs⟩, hoff, hmet⟩
            refine ⟨j + 1, by simpa using hj, by omega, ⟨x :: cs, ?_⟩, ?_, ?_⟩
            · rw [List.take_succ_cons, evalForest, he]
              simp only
              rw [hcs]
            · intro m hm
              cases m with
              | zero => exact ⟨off, by simpa using hr⟩
              | succ m =>
                obtain ⟨o, ho⟩ := hoff m (by omega)
                refine ⟨o, ?_⟩
                rw [← ho]
                congr 1
                omega
            · have e1 : i + (j + 1) = i + 1 + j := by omega
              rw [e1]
              simpa using hmet
          · rintro ⟨j, hj, hp, ⟨cs, hcs⟩, hoff, hmet⟩
            have hj0 := hnot0 j hj hmet
            obtain ⟨j', rfl⟩ := Nat.exists_eq_succ_of_ne_zero hj0
            rw [List.take_succ_cons] at hcs
            obtain ⟨x', xs, _, _, hxs⟩ := evalForest_cons_ok ids i root _ cs hcs
            refine ⟨j', by simpa using hj, by omega, ⟨xs, hxs⟩, ?_, ?_⟩
            · intro m hm
              obtain ⟨o, ho⟩ := hoff (m + 1) (by omega)
              refine ⟨o, ?_⟩
              rw [← ho]
              congr 1
              omega
            · have e1 : i + (j' + 1) = i + 1 + j' := by omega
              rw [e1] at hmet
              simpa using hmet
        cases hb : build ids rowFn (i + 1) rest with
        | error err =>
          simp only
          rw [← key, hb]
        | ok em =>
          simp only
          rw [← key, hb]
          constructor
          · intro h; cases h
          · intro h; cases h

end FirstViolation

section ErrorClaims

variable {R : Type} [CommRing R]

/-- Counterexample to C4: the forest `[VARIABLE(9), VARIABLE(9)]` with an empty
map and the one-entry offset table `[0]`: the table is shorter than the forest,
and the call fails at the first root with `UnknownVariableError`, before index 1
is looked up. -/
theorem short_table_other_error :
    [(0 : Int)].length < (LinOpVector.mk [var1 9, var1 9]).linvec.length
    ∧ ¬ ∃ i, (build_matrix_1 "" ⟨[var1 9, var1 9]⟩ [] [0]).2
        = .error (.IndexOutOfRangeError i) := by
  have h : (build_matrix_1 "" ⟨[var1 9, var1 9]⟩ [] [0]).2
      = .error (.UnknownVariableError 9 0) := rfl
  refine ⟨by decide, ?_⟩
  rintro ⟨i, hi⟩
  rw [h] at hi
  cases hi

/-- C4, amended: in explicit-offset mode (`build_matrix_1` calling
`build_matrix_3`), whenever the offset table is shorter than the forest the call
fails and returns no problem data; the error is the first violation met, which is
`IndexOutOfRangeError` at the first index outside the table when the roots up to
that index evaluate without error. -/
theorem short_offset_table_fails (Rcout : String) (xp : LinOpVector R) (v1 : NamedIntVector)
    (v2 : List Int) (hshort : v2.length < xp.linvec.length) :
    (∃ err, (build_matrix_1 Rcout xp v1 v2).2 = .error err)
    ∧ (∀ cs, evalForest (id_to_col v1) 0 (xp.linvec.take (v2.length + 1)) = .ok cs →
        (build_matrix_1 Rcout xp v1 v2).2 = .error (.IndexOutOfRangeError v2.length)) := by
  rw [build_matrix_1_result, constr_offsets_eq]
  obtain ⟨⟨err, herr⟩, h2⟩ := build_short_table_fails (id_to_col v1) v2 xp.linvec 0
    (Nat.zero_le _) (by omega)
  constructor
  · exact ⟨err, by simp only [build_matrix_3, build_with_offsets, herr]⟩
  · intro cs hcs
    have := h2 cs (by simpa using hcs)
    simp only [build_matrix_3, build_with_offsets, this]

/-- Witness of the amended C4 at the forest `[VARIABLE(0), VARIABLE(0)]` with the
map `0 ↦ 0` and the offset table `[0]`. -/
theorem short_offset_table_fails_witness :
    (build_matrix_1 "" ⟨[var1 0, var1 0]⟩ [("0", 0)] [0]).2
      = .error (.IndexOutOfRangeError 1) :=
  (short_offset_table_fails "" ⟨[var1 0, var1 0]⟩ [("0", 0)] [0] (by decide)).2
    [{ coeffs := [(0, 0, 1)], const := [0], varEnds := [1] },
     { coeffs := [(0, 0, 1)], const := [0], varEnds := [1] }] rfl

/-- Counterexample to C7: the forest `[SUM(DENSE 2x1, SCALAR 1x1), VARIABLE(9)]`
with the map `0 ↦ 0` contains a VARIABLE whose identifier is not a key, and the
build fails at the first root with `DimensionMismatchError`, not with
`UnknownVariableError`. -/
theorem unknown_variable_other_error :
    anyUnknownVariable (id_to_col [("0", 0)]) [sumOf 2 1 dense21 (const1 3), var1 9] = true
    ∧ ¬ ∃ u p, (build_matrix_0 "" ⟨[sumOf 2 1 dense21 (const1 3), var1 9]⟩ [("0", 0)]).2
        = .error (.UnknownVariableError u p) := by
  have h : (build_matrix_0 "" ⟨[sumOf 2 1 dense21 (const1 3), var1 9]⟩ [("0", 0)]).2
      = .error (.DimensionMismatchError .SUM 0) := rfl
  refine ⟨by decide, ?_⟩
  rintro ⟨u, p, hu⟩
  rw [h] at hu
  cases hu

end ErrorClaims

section EntryPointClaims

variable {R : Type} [CommRing R]

/-- C6: without offsets, `build_matrix_0` (calling `build_matrix_2`) returns a
problem data exactly when every root evaluates, and in the problem data it
returns the rows are assigned contiguously in forest order from zero: the rows of
expression `i` start at the sum of the row counts of the expressions before it.
The matrix is the sum of the expressions' local coefficients placed at those
rows, the vector is the concatenation of the expressions' constant vectors, each
as long as the row count of its expression, and the row count is the sum of the
row counts. The forest `[VARIABLE(0), NEG(VARIABLE(0))]` with the map `0 ↦ 0`
yields `A = [(0,0,1), (1,0,-1)]`, `b = [0,0]` and row count 2. -/
theorem build_without_offsets_contiguous (Rcout : String) (xp : LinOpVector R)
    (v : NamedIntVector) :
    ((∃ pd, (build_matrix_0 Rcout xp v).2 = .ok pd)
        ↔ ∃ cs, evalForest (id_to_col v) 0 xp.linvec = .ok cs)
    ∧ (∀ pd, (build_matrix_0 Rcout xp v).2 = .ok pd →
        ∃ cs, evalForest (id_to_col v) 0 xp.linvec = .ok cs
          ∧ (∀ r col, entry pd.A r col
              = (((List.range xp.linvec.length).zip cs).map
                  (fun p => placedEntry (startRow xp.linvec p.1) p.2.coeffs r col)).sum)
          ∧ (pd.A.map (fun t => (t.1, t.2.1))).Nodup
          ∧ pd.rows = (((xp.linvec.map rowCount).sum : Nat) : Int)
          ∧ pd.b = (cs.map (fun x => x.const)).flatten
          ∧ cs.map (fun x => x.const.length) = xp.linvec.map rowCount)
    ∧ (build_matrix_0 "" ⟨[var1 0, neg1 (var1 0)]⟩ [("0", 0)]).2
        = .ok { A := [(0, 0, 1), (1, 0, -1)], b := [0, 0], rows := 2, cols := 1 } := by
  rw [build_matrix_0_result]
  exact ⟨(build_matrix_2_contiguous xp.linvec (id_to_col v)).1,
    (build_matrix_2_contiguous xp.linvec (id_to_col v)).2, rfl⟩

/-- Witness of C6 at the forest `[VARIABLE(0), NEG(VARIABLE(0))]`. -/
theorem build_without_offsets_contiguous_witness :
    (build_matrix_0 "" ⟨[var1 0, neg1 (var1 0)]⟩ [("0", 0)]).2
        = .ok { A := [(0, 0, 1), (1, 0, -1)], b := [0, 0], rows := 2, cols := 1 }
    ∧ ∃ cs, evalForest (id_to_col [("0", 0)]) 0 [var1 0, neg1 (var1 0)] = .ok cs
        ∧ ([0, 0] : List Int) = (cs.map (fun x => x.const)).flatten
        ∧ cs.map (fun x => x.const.length) = [var1 0, neg1 (var1 0)].map rowCount := by
  refine ⟨rfl, ?_⟩
  obtain ⟨cs, h1, _, _, _, h5, h6⟩ := (build_without_offsets_contiguous ""
    ⟨[var1 0, neg1 (var1 0)]⟩ [("0", 0)]).2.1
    { A := [(0, 0, 1), (1, 0, -1)], b := [0, 0], rows := 2, cols := 1 } rfl
  exact ⟨cs, h1, h5, h6⟩

omit [CommRing R] in
theorem anyUnknownVariable_append (ids : List (Int × Int)) (child : LinOp R)
    (after : List (LinOp R)) (h : hasUnknownVariable ids child = true) :
    ∀ before : List (LinOp R), anyUnknownVariable ids (before ++ child :: after) = true := by
  intro before
  induction before with
  | nil => rw [List.nil_append, anyUnknownVariable, h]; rfl
  | cons b bs ih => rw [List.cons_append, anyUnknownVariable, ih]; simp

theorem hasUnknownVariable_of_unknownMetFirst (ids : List (Int × Int)) (pos : Nat)
    (e : LinOp R) (u : Int) (h : UnknownMetFirst ids pos e u) :
    hasUnknownVariable ids e = true := by
  induction h with
  | atNode rows cols children payload id slice cs hid hch =>
    rw [hasUnknownVariable]
    simp [hid]
  | inChild tag rows cols before child after payload id slice cs u hbefore _ ih =>
    rw [hasUnknownVariable, anyUnknownVariable_append ids child after ih before]
    simp

theorem build_without_offsets_error_iff (roots : List (LinOp R)) (ids : List (Int × Int))
    (err : CanonError) :
    build_matrix_2 roots ids = .error err
      ↔ build ids (resolve_row_single roots) 0 roots = .error err := by
  unfold build_matrix_2 build_without_offsets
  cases build ids (resolve_row_single roots) 0 roots with
  | error e => simp
  | ok em => simp

theorem build_with_offsets_error_iff (roots : List (LinOp R)) (ids : List (Int × Int))
    (offs : List Int) (err : CanonError) :
    build_matrix_3 roots ids offs = .error err
      ↔ build ids (resolve_row_explicit offs) 0 roots = .error err := by
  unfold build_matrix_3 build_with_offsets
  cases build ids (resolve_row_explicit offs) 0 roots with
  | error e => simp
  | ok em => simp

theorem resolve_row_explicit_ok_iff (offs : List Int) (m : Nat) :
    (∃ off, resolve_row_explicit offs m = .ok off) ↔ m < offs.length := by
  unfold resolve_row_explicit
  by_cases hm : m < offs.length
  · simp [List.getElem?_eq_getElem hm, hm]
  · have hnone : offs[m]? = none := by simp; omega
    simp [hnone, hm]

/-- C7, amended: for every forest that contains a VARIABLE node whose identifier
is not a key of the `id_to_col` map built from the caller's named vector, both
entry points fail: an error is returned, never a problem data, so the variable is
never treated as a constant. The error is the first violation met in traversal
order (the roots in forest order, each root in post-order, the offset of a root
looked up after its evaluation): it is `UnknownVariableError` for the identifier
`u` at position `p` exactly when the roots before `p` evaluate (and, with
offsets, have an offset) and in root `p` the VARIABLE `u`, which is not a key, is
met before any other violation; in particular it is `UnknownVariableError`
whenever the unknown identifiers are the only violation, that is whenever the
build succeeds with a map that extends the caller's. -/
theorem unknown_variable_fails (Rcout : String) (xp : LinOpVector R) (v : NamedIntVector) :
    (anyUnknownVariable (id_to_col v) xp.linvec = true →
        (∃ err, (build_matrix_0 Rcout xp v).2 = .error err)
        ∧ ∀ v2, ∃ err, (build_matrix_1 Rcout xp v v2).2 = .error err)
    ∧ (∀ u p, (build_matrix_0 Rcout xp v).2 = .error (.UnknownVariableError u p)
        ↔ ∃ (hp : p < xp.linvec.length),
            (∃ cs, evalForest (id_to_col v) 0 (xp.linvec.take p) = .ok cs)
            ∧ UnknownMetFirst (id_to_col v) p xp.linvec[p] u)
    ∧ (∀ v2 u p, (build_matrix_1 Rcout xp v v2).2 = .error (.UnknownVariableError u p)
        ↔ ∃ (hp : p < xp.linvec.length), p ≤ v2.length
            ∧ (∃ cs, evalForest (id_to_col v) 0 (xp.linvec.take p) = .ok cs)
            ∧ UnknownMetFirst (id_to_col v) p xp.linvec[p] u)
    ∧ (∀ (p : Nat) (e : LinOp R) (u : Int), UnknownMetFirst (id_to_col v) p e u →
        u ∉ StdMap.keys (id_to_col v) ∧ hasUnknownVariable (id_to_col v) e = true)
    ∧ (anyUnknownVariable (id_to_col v) xp.linvec = true →
        ∀ ids' : List (Int × Int),
        (∀ k ∈ StdMap.keys (id_to_col v),
          StdMap.find intLess ids' k = StdMap.find intLess (id_to_col v) k) →
        ((∃ pd, build_matrix_2 xp.linvec ids' = .ok pd) →
          ∃ u p, u ∉ StdMap.keys (id_to_col v)
            ∧ (build_matrix_0 Rcout xp v).2 = .error (.UnknownVariableError u p))
        ∧ ∀ v2, (∃ pd, build_matrix_3 xp.linvec ids' (constr_offsets v2) = .ok pd) →
          ∃ u p, u ∉ StdMap.keys (id_to_col v)
            ∧ (build_matrix_1 Rcout xp v v2).2 = .error (.UnknownVariableError u p)) := by
  refine ⟨?_, ?_, ?_, ?_, ?_⟩
  · intro hunk
    constructor
    · rw [build_matrix_0_result]
      obtain ⟨err, herr⟩ := build_fails_of_unknown (id_to_col v)
        (resolve_row_single xp.linvec) xp.linvec 0 hunk
      exact ⟨err, by simp only [build_matrix_2, build_without_offsets, herr]⟩
    · intro v2
      rw [build_matrix_1_result]
      obtain ⟨err, herr⟩ := build_fails_of_unknown (id_to_col v)
        (resolve_row_explicit (constr_offsets v2)) xp.linvec 0 hunk
      exact ⟨err, by simp only [build_matrix_3, build_with_offsets, herr]⟩
  · intro u p
    rw [build_matrix_0_result, build_without_offsets_error_iff,
      build_unknown_iff (id_to_col v) (resolve_row_single xp.linvec)
        (by intro i u q h; simp [resolve_row_single] at h) xp.linvec 0 u p]
    constructor
    · rintro ⟨j, hj, hp, hcs, _, hmet⟩
      have hpj : p = j := by omega
      subst hpj
      exact ⟨hj, hcs, by simpa using hmet⟩
    · rintro ⟨hp, hcs, hmet⟩
      exact ⟨p, hp, by omega, hcs, fun m _ => ⟨_, rfl⟩, by simpa using hmet⟩
  · intro v2 u p
    rw [build_matrix_1_result, constr_offsets_eq, build_with_offsets_error_iff,
      build_unknown_iff (id_to_col v) (resolve_row_explicit v2)
        (by
          intro i u q h
          unfold resolve_row_explicit at h
          split at h <;> cases h) xp.linvec 0 u p]
    constructor
    · rintro ⟨j, hj, hp, hcs, hoff, hmet⟩
      have hpj : p = j := by omega
      subst hpj
      refine ⟨hj, ?_, hcs, by simpa using hmet⟩
      by_contra hlt
      have := (resolve_row_explicit_ok_iff v2 v2.length).1
        (by simpa using hoff v2.length (by omega))
      omega
    · rintro ⟨hp, hle, hcs, hmet⟩
      refine ⟨p, hp, by omega, hcs, ?_, by simpa using hmet⟩
      intro m hm
      exact (resolve_row_explicit_ok_iff v2 (0 + m)).2 (by omega)
  · intro p e u h
    exact ⟨not_mem_of_unknownMetFirst _ p e u h, hasUnknownVariable_of_unknownMetFirst _ p e u h⟩
  · intro hunk ids' hext
    constructor
    · rintro ⟨pd, hpd⟩
      rw [build_matrix_0_result]
      simp only [build_matrix_2, build_without_offsets] at hpd ⊢
      cases hb : build ids' (resolve_row_single xp.linvec) 0 xp.linvec with
      | error err => rw [hb] at hpd; cases hpd
      | ok em =>
        obtain ⟨u, p, hu, h⟩ := build_unknown_only (id_to_col v) ids' hext
          (resolve_row_single xp.linvec) xp.linvec hunk em hb
        exact ⟨u, p, hu, by rw [h]⟩
    · rintro v2 ⟨pd, hpd⟩
      rw [build_matrix_1_result]
      simp only [build_matrix_3, build_with_offsets] at hpd ⊢
      cases hb : build ids' (resolve_row_explicit (constr_offsets v2)) 0 xp.linvec with
      | error err => rw [hb] at hpd; cases hpd
      | ok em =>
        obtain ⟨u, p, hu, h⟩ := build_unknown_only (id_to_col v) ids' hext
          (resolve_row_explicit (constr_offsets v2)) xp.linvec hunk em hb
        exact ⟨u, p, hu, by rw [h]⟩

/-- Witness of the amended C7: in the forest `[VARIABLE(9), SUM(DENSE 2x1,
SCALAR 1x1)]` with the map `0 ↦ 0` the unknown VARIABLE is met first, before the
shape mismatch of the second root; in `[VARIABLE(0), VARIABLE(9)]` it is the only
violation. -/
theorem unknown_variable_fails_witness :
    (build_matrix_0 "" ⟨[var1 9, sumOf 2 1 dense21 (const1 3)]⟩ [("0", 0)]).2
        = .error (.UnknownVariableError 9 0)
    ∧ (∃ err, (build_matrix_0 "" ⟨[var1 9, sumOf 2 1 dense21 (const1 3)]⟩ [("0", 0)]).2
        = .error err)
    ∧ ∃ u p, u ∉ StdMap.keys (id_to_col [("0", 0)])
        ∧ (build_matrix_0 "" ⟨[var1 0, var1 9]⟩ [("0", 0)]).2
            = .error (.UnknownVariableError u p) :=
  ⟨((unknown_variable_fails "" ⟨[var1 9, sumOf 2 1 dense21 (const1 3)]⟩ [("0", 0)]).2.1
      9 0).2 ⟨by decide, ⟨[], rfl⟩,
        UnknownMetFirst.atNode 1 1 [] none 9 (0, 0, 0, 0) [] (by decide) rfl⟩,
   ((unknown_variable_fails "" ⟨[var1 9, sumOf 2 1 dense21 (const1 3)]⟩ [("0", 0)]).1
      (by decide)).1,
   ((unknown_variable_fails "" ⟨[var1 0, var1 9]⟩ [("0", 0)]).2.2.2.2 (by decide)
      [(0, 0), (9, 1)] (by decide)).1 ⟨_, rfl⟩⟩

end EntryPointClaims

section OutputClaims

variable {R : Type} [CommRing R]

/-- Counterexample to C8: on the empty forest with the empty vector, from an
empty output stream, `build_matrix_0` leaves text on the stream. -/
theorem build_matrix_0_writes :
    ¬ ((build_matrix_0 (R := Int) "" ⟨[]⟩ []).1 = "") := by
  decide

/-- C8, amended: the core build writes nothing, and each entry point writes to
the output stream exactly the line `Before Build Matrix` before the build and,
when the build returns, the line `After constructing external ptr` after it. -/
theorem entry_points_output (Rcout : String) (xp : LinOpVector R) (v : NamedIntVector)
    (v2 : List Int) :
    (build_matrix_0 Rcout xp v).1
        = (match build_matrix_2 xp.linvec (id_to_col v) with
            | .ok _ => Rcout ++ "Before Build Matrix\n" ++ "After constructing external ptr\n"
            | .error _ => Rcout ++ "Before Build Matrix\n")
    ∧ (build_matrix_1 Rcout xp v v2).1
        = (match build_matrix_3 xp.linvec (id_to_col v) (constr_offsets v2) with
            | .ok _ => Rcout ++ "Before Build Matrix\n" ++ "After constructing external ptr\n"
            | .error _ => Rcout ++ "Before Build Matrix\n") := by
  constructor
  · cases h : build_matrix_2 xp.linvec (id_to_col v) <;> simp [build_matrix_0, h]
  · cases h : build_matrix_3 xp.linvec (id_to_col v) (constr_offsets v2) <;>
      simp [build_matrix_1, h]

end OutputClaims


end CVXR
